import Mathlib

/-!
Verification development for the `inventory_odoo` module
(`controllers/inventory_controller.py`, `models/stock_quant_change.py`).

Shallow embedding conventions:
* Quantities (Python floats used only with `+`, `-`, `min`, `max` and
  comparisons) are modelled as exact rationals `ℚ`.
* A ledger row (`stock.quant`) carries its on-hand `quantity` and staged
  counted quantity `inventory_quantity`; the reserved quantity of a row is
  derived from pending reservation records (the abstraction of
  `stock.move.line` / `stock.move` rows that the controller creates,
  reduces, and cancels), summed at the row's exact (product, location) pair.
  `available_quantity = quantity - reserved_quantity`, exactly as Odoo
  computes it for internal locations.
* The location hierarchy (`child_of` operator of the search domains) is
  modelled by an environment function giving, for every location id, the
  list of its ancestors (including itself).
* The persistence layer is modelled as in-place list updates; record ids are
  natural numbers allocated from fresh counters.
-/

namespace InventoryOdoo

/-- A product variant (`product.product`): id, barcode and display name. -/
structure Product where
  id : Nat
  barcode : String
  name : String
deriving DecidableEq, Repr

/-- A warehouse (`stock.warehouse`): id, name and its root stock location
(`lot_stock_id`). -/
structure Warehouse where
  id : Int
  name : String
  lot_stock_id : Nat
deriving DecidableEq, Repr

/-- Static environment: product catalog, warehouses, and the location
hierarchy.  `locAnc l` is the list of ancestors of location `l`,
including `l` itself; it interprets the `child_of` search operator. -/
structure Env where
  products : List Product
  warehouses : List Warehouse
  locAnc : Nat → List Nat

/-- `child_of` of Odoo search domains: location `l` lies in the subtree
rooted at `root`. -/
def childOf (E : Env) (l root : Nat) : Bool :=
  (E.locAnc l).contains root

/-- A ledger row (`stock.quant`): on-hand `quantity` and staged counted
`inventory_quantity` (`none` when the counted value was never set). -/
structure Quant where
  qid : Nat
  product : Nat
  locId : Nat
  quantity : ℚ
  inventory_quantity : Option ℚ
deriving DecidableEq, Repr

/-- A pending reservation: the abstraction of the reserved quantity held by
`stock.move.line`/`stock.move` records at a location for a product. -/
structure Reservation where
  rid : Nat
  product : Nat
  locId : Nat
  amount : ℚ
deriving DecidableEq, Repr

/-- `change_type` selection of `stock.quant.change`. -/
inductive ChangeType
  | transfer
  | adjust_set
  | adjust_add
  | adjust_subtract
  | other
deriving DecidableEq, Repr

/-- `direction` selection of `stock.quant.change`. -/
inductive Direction
  | increase
  | decrease
  | neutral
deriving DecidableEq, Repr

/-- An audit record (`stock.quant.change`). -/
structure StockQuantChange where
  quant_id : Option Nat
  product_id : Nat
  location_id : Nat
  change_type : ChangeType
  on_hand_before : ℚ
  on_hand_after : ℚ
  available_before : ℚ
  available_after : ℚ
  delta_on_hand : ℚ
  delta_available : ℚ
  direction : Direction
  location_from_id : Option Nat
  location_to_id : Option Nat
  ref : String
  note : String
deriving DecidableEq, Repr

/-- Mutable store state: ledger rows, pending reservations, audit log, and
fresh id counters. -/
structure State where
  quants : List Quant
  reservations : List Reservation
  audit : List StockQuantChange
  nextQid : Nat
  nextRid : Nat
deriving DecidableEq, Repr

/-- Reserved quantity of the (product, location) pair: sum of the pending
reservation amounts recorded at exactly that pair. -/
def reserved_quantity (res : List Reservation) (p loc : Nat) : ℚ :=
  ((res.filter (fun r => r.product == p && r.locId == loc)).map (·.amount)).sum

/-- `available_quantity` of a ledger row: on-hand minus reserved. -/
def available_quantity (res : List Reservation) (q : Quant) : ℚ :=
  q.quantity - reserved_quantity res q.product q.locId

/-- Row filter of the searches
`[('product_id','=',p), ('location_id','child_of',root)]`. -/
def matchSub (E : Env) (p root : Nat) (q : Quant) : Bool :=
  q.product == p && childOf E q.locId root

/-- Ledger rows of product `p` in the subtree of `root`. -/
def quantsIn (E : Env) (qs : List Quant) (p root : Nat) : List Quant :=
  qs.filter (matchSub E p root)

/-- `sum(quants.mapped('quantity'))` over a subtree search. -/
def onHandSum (E : Env) (qs : List Quant) (p root : Nat) : ℚ :=
  ((quantsIn E qs p root).map (·.quantity)).sum

/-- `sum(q.available_quantity for q in quants)` over a subtree search. -/
def availSum (E : Env) (res : List Reservation) (qs : List Quant) (p root : Nat) : ℚ :=
  ((quantsIn E qs p root).map (available_quantity res)).sum

/-- `product.product` search by barcode, `limit=1`. -/
def findProduct (E : Env) (b : String) : Option Product :=
  E.products.find? (·.barcode == b)

/-- `stock.warehouse` browse + `exists()` check. -/
def findWarehouse (E : Env) (i : Int) : Option Warehouse :=
  E.warehouses.find? (·.id == i)

/-- `_compute_deltas` of `stock.quant.change`: recompute the two deltas from
the stored snapshots and classify the `direction`, checking `increase`
first. -/
def _compute_deltas (e : StockQuantChange) : StockQuantChange :=
  let dOH := e.on_hand_after - e.on_hand_before
  let dAV := e.available_after - e.available_before
  { e with
    delta_on_hand := dOH
    delta_available := dAV
    direction :=
      if 0 < dOH ∨ 0 < dAV then Direction.increase
      else if dOH < 0 ∨ dAV < 0 then Direction.decrease
      else Direction.neutral }

/-- `_log_quant_change`: build an audit record; creation triggers
`_compute_deltas`, which fills the derived fields. -/
def _log_quant_change (quantRef : Option Nat) (p loc : Nat) (ct : ChangeType)
    (ohB ohA avB avA : ℚ) (locFrom locTo : Option Nat) (r n : String) :
    StockQuantChange :=
  _compute_deltas
    { quant_id := quantRef
      product_id := p
      location_id := loc
      change_type := ct
      on_hand_before := ohB
      on_hand_after := ohA
      available_before := avB
      available_after := avA
      delta_on_hand := 0
      delta_available := 0
      direction := Direction.neutral
      location_from_id := locFrom
      location_to_id := locTo
      ref := r
      note := n }

/-! ### Transfer (`transfer_inventory`, controller lines 290-864) -/

/-- Error kinds of the transfer endpoint (the `error` field of the JSON
error responses, in the controller's check order). -/
inductive TransferError
  | missingBarcode
  | missingSourceWarehouse
  | missingDestinationWarehouse
  | invalidQuantity
  | productNotFound
  | sourceWarehouseNotFound
  | destinationWarehouseNotFound
  | sameWarehouse
  | insufficientStock
  | noStock
deriving DecidableEq, Repr

/-- Parsed JSON body of `POST /api/inventory/transfer`; `none` models an
absent key, and falsy values (empty barcode, id `0`) are kept so the
controller's `if not x` checks can be translated literally. -/
structure TransferRequest where
  barcode : Option String
  source_warehouse_id : Option Int
  destination_warehouse_id : Option Int
  quantity : Option ℚ

/-- Payload carried past the validation phase of `transfer_inventory`. -/
structure ValidTransfer where
  product : Product
  srcW : Warehouse
  dstW : Warehouse
  quantity : ℚ
  barcode : String
deriving DecidableEq, Repr

/-- Successful-response body of the transfer endpoint.  Field for field the
JSON of controller lines 826-850: note that `destination_warehouse` carries
only on-hand snapshots (no available before/after fields). -/
structure TransferResult where
  product : String
  barcode : String
  quantity : ℚ
  available_transferred : ℚ
  additional_added : ℚ
  source_warehouse_id : Int
  source_warehouse_name : String
  source_on_hand_before : ℚ
  source_on_hand_after : ℚ
  source_available_before : ℚ
  source_available_after : ℚ
  destination_warehouse_id : Int
  destination_warehouse_name : String
  destination_on_hand_before : ℚ
  destination_on_hand_after : ℚ
deriving DecidableEq, Repr

/-- Validation phase of `transfer_inventory` (controller lines 326-428): all
checks, in source order, up to and including the stock sufficiency checks.
Every check precedes the first ledger write. -/
def validateTransfer (E : Env) (req : TransferRequest) (s : State) :
    Except TransferError ValidTransfer :=
  match req.barcode with
  | none => .error .missingBarcode
  | some b =>
    if b = "" then .error .missingBarcode
    else match req.source_warehouse_id with
    | none => .error .missingSourceWarehouse
    | some sid =>
      if sid = 0 then .error .missingSourceWarehouse
      else match req.destination_warehouse_id with
      | none => .error .missingDestinationWarehouse
      | some did =>
        if did = 0 then .error .missingDestinationWarehouse
        else match req.quantity with
        | none => .error .invalidQuantity
        | some qv =>
          if qv ≤ 0 then .error .invalidQuantity
          else match findProduct E b with
          | none => .error .productNotFound
          | some v =>
            match findWarehouse E sid with
            | none => .error .sourceWarehouseNotFound
            | some sw =>
              match findWarehouse E did with
              | none => .error .destinationWarehouseNotFound
              | some dw =>
                if sw.id = dw.id then .error .sameWarehouse
                else
                  let onHand := onHandSum E s.quants v.id sw.lot_stock_id
                  if onHand < qv then .error .insufficientStock
                  else if onHand ≤ 0 then .error .noStock
                  else .ok ⟨v, sw, dw, qv, b⟩

/-- Source-side subtraction loop (controller lines 463-473), run over the
row list with the source-search filter inlined: skip rows whose on-hand is
not positive, take `min(current, remaining)` from each positive row, stop
once the remainder reaches zero.  Returns the updated rows and the final
`remaining_to_subtract`. -/
def subtractSource (E : Env) (p root : Nat) :
    List Quant → ℚ → List Quant × ℚ
  | [], rem => ([], rem)
  | q :: rest, rem =>
    if matchSub E p root q then
      if rem ≤ 0 then (q :: rest, rem)
      else if 0 < q.quantity then
        let amt := min q.quantity rem
        let out := subtractSource E p root rest (rem - amt)
        ({ q with quantity := q.quantity - amt } :: out.1, out.2)
      else
        let out := subtractSource E p root rest rem
        (q :: out.1, out.2)
    else
      let out := subtractSource E p root rest rem
      (q :: out.1, out.2)

/-- Write `quantity` of the row with id `i` (a `quant.quantity = v`
record write). -/
def setQuantQty (qs : List Quant) (i : Nat) (v : ℚ) : List Quant :=
  qs.map (fun q => if q.qid == i then { q with quantity := v } else q)

/-- Write `inventory_quantity` of the row with id `i`. -/
def setQuantInv (qs : List Quant) (i : Nat) (v : ℚ) : List Quant :=
  qs.map (fun q => if q.qid == i then { q with inventory_quantity := some v } else q)

/-- Reduce the reservation with id `i` by `amt`, unlinking it when nothing
is left (controller lines 523-536). -/
def reduceRes (i : Nat) (amt : ℚ) (res : List Reservation) : List Reservation :=
  res.filterMap (fun r =>
    if r.rid == i then
      let a := r.amount - amt
      if a ≤ 0 then none else some { r with amount := a }
    else some r)

/-- Reduction loop of repair tier 1 (controller lines 518-536): walk the
pre-sorted candidate list, taking `min(current, remaining)` from each
reservation until the excess is gone. -/
def reduceLoop (cands : List Reservation) (res : List Reservation) (remaining : ℚ) :
    List Reservation :=
  match cands with
  | [] => res
  | c :: rest =>
    if remaining ≤ 0 then res
    else reduceLoop rest (reduceRes c.rid (min c.amount remaining) res) (remaining - min c.amount remaining)

/-- Stable descending insertion by reservation amount, modelling
`move_lines_with_reserved.sort(key=..., reverse=True)` (largest
reservation first). -/
def insertByAmountDesc (r : Reservation) : List Reservation → List Reservation
  | [] => [r]
  | x :: xs =>
    if x.amount < r.amount then r :: x :: xs
    else x :: insertByAmountDesc r xs

/-- Sort reservations by amount, largest first (stable). -/
def sortByAmountDesc : List Reservation → List Reservation
  | [] => []
  | r :: rs => insertByAmountDesc r (sortByAmountDesc rs)

/-- Cancel loop of repair tier 2 (controller lines 543-567): cancel pending
reserving moves one by one, rechecking the row's availability after each
cancellation and stopping as soon as it is no longer negative. -/
def cancelLoop (q : Quant) (rids : List Nat) (res : List Reservation) :
    List Reservation :=
  match rids with
  | [] => res
  | i :: rest =>
    let res1 := res.filter (fun r => r.rid != i)
    if 0 ≤ available_quantity res1 q then res1 else cancelLoop q rest res1

/-- Append a fresh pending reservation of `amt` for product `p` at location
`loc` (the picking/move creation plus `action_confirm`/`action_assign`
sequence the controller uses to synthesize a reservation). -/
def addReservation (s : State) (p loc : Nat) (amt : ℚ) : State :=
  { s with
    reservations := s.reservations ++ [⟨s.nextRid, p, loc, amt⟩]
    nextRid := s.nextRid + 1 }

/-- Repair tiers 1-3 for one row (controller lines 482-583): when the row's
availability is negative, reduce the matching pending reservations (largest
first) by the excess, then cancel pending reserving moves one by one, and
as a final fallback raise the row's on-hand by the residual negative
magnitude so availability is floored at zero. -/
def repairAvail (E : Env) (p : Nat) (s : State) (i : Nat) (q : Quant) : State :=
  let avail := available_quantity s.reservations q
  if avail < 0 then
    let excess := -avail
    let cands := sortByAmountDesc
      ((s.reservations.filter
        (fun r => r.product == p && childOf E r.locId q.locId)).filter
        (fun r => 0 < r.amount))
    let res1 := reduceLoop cands s.reservations excess
    let avail1 := available_quantity res1 q
    let res2 :=
      if avail1 < 0 then
        cancelLoop q
          ((res1.filter (fun r => r.product == p && childOf E r.locId q.locId)).map (·.rid))
          res1
      else res1
    let avail2 := available_quantity res2 q
    if avail2 < 0 then
      { s with reservations := res2, quants := setQuantQty s.quants i (q.quantity + -avail2) }
    else { s with reservations := res2 }
  else s

/-- Controller lines 584-633: when the transfer over-committed
(`additional_to_add > 0`) and the row still shows positive availability,
synthesize a reservation of the remainder so availability becomes zero. -/
def reserveRemaining (additional : ℚ) (p : Nat) (s : State) (q2 : Quant) : State :=
  let availX := available_quantity s.reservations q2
  if 0 < additional ∧ 0 < availX then addReservation s p q2.locId availX else s

/-- Controller lines 635-693: when the row's availability is still negative
at this point, reserve the excess (this branch is unreachable once the
earlier repairs ran, which `repairQuant_spec` makes precise). -/
def reserveExcess (p : Nat) (s : State) (q3 : Quant) : State :=
  let availY := available_quantity s.reservations q3
  if availY < 0 then addReservation s p q3.locId (-availY) else s

/-- Per-row availability repair of the transfer source side (controller
lines 482-694) for the row with id `i`: the three repair tiers, then the
reserve-remaining step, then the reserve-excess step, re-reading the row
between stages as the controller's `invalidate_recordset` calls do. -/
def repairQuant (E : Env) (p : Nat) (additional : ℚ) (s : State) (i : Nat) : State :=
  match s.quants.find? (·.qid == i) with
  | none => s
  | some q =>
    let s1 := repairAvail E p s i q
    match s1.quants.find? (·.qid == i) with
    | none => s1
    | some q2 =>
      let s2 := reserveRemaining additional p s1 q2
      match s2.quants.find? (·.qid == i) with
      | none => s2
      | some q3 => reserveExcess p s2 q3

/-- Repair loop over the post-subtraction source search result (controller
lines 477-694). -/
def repairLoop (E : Env) (p : Nat) (additional : ℚ) (s : State) :
    List Nat → State
  | [] => s
  | i :: rest => repairLoop E p additional (repairQuant E p additional s i) rest

/-- Source side of the transfer mutation (controller lines 455-694):
subtract the requested quantity across the source search result, then run
the availability repair loop over the rows found by the fresh
post-subtraction search. -/
def sourcePhase (E : Env) (p srcLoc : Nat) (Q additional : ℚ) (s : State) : State :=
  let s1 : State := { s with quants := (subtractSource E p srcLoc s.quants Q).1 }
  repairLoop E p additional s1 ((quantsIn E s1.quants p srcLoc).map (·.qid))

/-- Destination side of the transfer mutation (controller lines 696-767):
add the full requested quantity to the destination row (creating it when
absent), then synthesize a reservation of the over-commitment so available
increases only by the freely-available part. -/
def destinationPhase (p dstLoc : Nat) (Q additional : ℚ) (s2 : State) : State :=
  let s3 :=
    match s2.quants.find? (fun q => q.product == p && q.locId == dstLoc) with
    | some dq => { s2 with quants := setQuantQty s2.quants dq.qid (dq.quantity + Q) }
    | none =>
      { s2 with
        quants := s2.quants ++ [⟨s2.nextQid, p, dstLoc, Q, none⟩]
        nextQid := s2.nextQid + 1 }
  if 0 < additional then addReservation s3 p dstLoc additional else s3

/-- Mutation phase of `transfer_inventory` (controller lines 430-850), run
once validation has passed: capture before snapshots, subtract at the
source, repair availability row by row, add to the destination, reserve any
over-commitment, capture after snapshots, and append the two audit
records. -/
def performTransfer (E : Env) (v : ValidTransfer) (s : State) :
    TransferResult × State :=
  let p := v.product.id
  let srcLoc := v.srcW.lot_stock_id
  let dstLoc := v.dstW.lot_stock_id
  let Q := v.quantity
  let onHandB := onHandSum E s.quants p srcLoc
  let availB := availSum E s.reservations s.quants p srcLoc
  let dstOnHandB := onHandSum E s.quants p dstLoc
  let dstAvailB := availSum E s.reservations s.quants p dstLoc
  let available_to_transfer := min availB Q
  let additional_to_add := max 0 (Q - availB)
  let s2 := sourcePhase E p srcLoc Q additional_to_add s
  let s4 := destinationPhase p dstLoc Q additional_to_add s2
  let onHandA := onHandSum E s4.quants p srcLoc
  let availA := availSum E s4.reservations s4.quants p srcLoc
  let dstOnHandA := onHandSum E s4.quants p dstLoc
  let dstAvailA := availSum E s4.reservations s4.quants p dstLoc
  let srcRef := (s4.quants.find? (fun q => q.product == p && q.locId == srcLoc)).map (·.qid)
  let e1 := _log_quant_change srcRef p srcLoc ChangeType.transfer
    onHandB onHandA availB availA (some srcLoc) (some dstLoc)
    ("API transfer barcode=" ++ v.barcode) "Transferred"
  let dstRef := (s4.quants.find? (fun q => q.product == p && q.locId == dstLoc)).map (·.qid)
  let e2 := _log_quant_change dstRef p dstLoc ChangeType.transfer
    dstOnHandB dstOnHandA dstAvailB dstAvailA (some srcLoc) (some dstLoc)
    ("API transfer barcode=" ++ v.barcode) "Received"
  let s5 := { s4 with audit := s4.audit ++ [e1, e2] }
  (⟨v.product.name, v.barcode, Q, available_to_transfer, additional_to_add,
    v.srcW.id, v.srcW.name, onHandB, onHandA, availB, availA,
    v.dstW.id, v.dstW.name, dstOnHandB, dstOnHandA⟩, s5)

/-- `POST /api/inventory/transfer`: validate, then mutate; an error response
is returned before any write, leaving the state untouched. -/
def transfer_inventory (E : Env) (req : TransferRequest) (s : State) :
    Except TransferError TransferResult × State :=
  match validateTransfer E req s with
  | .error e => (.error e, s)
  | .ok v =>
    let out := performTransfer E v s
    (.ok out.1, out.2)

/-! ### Adjustment (`adjust_inventory`, controller lines 866-1074) -/

/-- Error kinds of the adjust endpoint. -/
inductive AdjustError
  | missingBarcode
  | missingWarehouse
  | invalidOperation
  | missingQuantity
  | productNotFound
  | warehouseNotFound
  | insufficientStock
deriving DecidableEq, Repr

/-- Parsed JSON body of `POST /api/inventory/adjust`.  `operation = none`
models an absent key, which `data.get('operation', 'set')` defaults to
`"set"`. -/
structure AdjustRequest where
  barcode : Option String
  warehouse_id : Option Int
  operation : Option String
  quantity : Option ℚ

/-- Successful-response body of the adjust endpoint (controller
lines 1050-1060). -/
structure AdjustResult where
  product : String
  barcode : String
  operation : String
  quantity : ℚ
  previous_counted_quantity : ℚ
  new_counted_quantity : ℚ
  warehouse : String
deriving DecidableEq, Repr

/-- Current counted quantity resolution (controller lines 967-979): the
row's counted value when set, else the row's on-hand, else the summed
on-hand over the location subtree. -/
def currentCounted (E : Env) (s : State) (p loc : Nat) : ℚ :=
  match s.quants.find? (fun q => q.product == p && q.locId == loc) with
  | some q =>
    match q.inventory_quantity with
    | some c => c
    | none => q.quantity
  | none => onHandSum E s.quants p loc

/-- Payload carried past the validation phase of `adjust_inventory`. -/
structure ValidAdjust where
  product : Product
  w : Warehouse
  op : String
  quantity : ℚ
  barcode : String
deriving DecidableEq, Repr

/-- Validation phase of `adjust_inventory` (controller lines 901-957), in
source order: barcode, warehouse id, operation enum (`data.get` defaults an
absent operation to `"set"`), quantity presence (`quantity is None` — zero
is allowed), product lookup, warehouse lookup. -/
def validateAdjust (E : Env) (req : AdjustRequest) : Except AdjustError ValidAdjust :=
  match req.barcode with
  | none => .error .missingBarcode
  | some b =>
    if b = "" then .error .missingBarcode
    else match req.warehouse_id with
    | none => .error .missingWarehouse
    | some wid =>
      if wid = 0 then .error .missingWarehouse
      else
        let op := req.operation.getD "set"
        if op ≠ "set" ∧ op ≠ "add" ∧ op ≠ "subtract" then .error .invalidOperation
        else match req.quantity with
        | none => .error .missingQuantity
        | some qv =>
          match findProduct E b with
          | none => .error .productNotFound
          | some v =>
            match findWarehouse E wid with
            | none => .error .warehouseNotFound
            | some w => .ok ⟨v, w, op, qv, b⟩

/-- Mutation phase of `adjust_inventory` (controller lines 959-1060):
resolve the current counted quantity, compute the target
(`set → quantity`, `add → current + quantity`,
`subtract → current - quantity`, rejected with `insufficientStock` when the
result would be negative — before any write), stage the counted value on
the row (creating it when absent), and append one audit record whose
on-hand/available snapshots are identical. -/
def performAdjust (E : Env) (v : ValidAdjust) (s : State) :
    Except AdjustError AdjustResult × State :=
  let loc := v.w.lot_stock_id
  let quantFound := s.quants.find? (fun q => q.product == v.product.id && q.locId == loc)
  let current := currentCounted E s v.product.id loc
  let targetRes : Except AdjustError ℚ :=
    if v.op = "set" then .ok v.quantity
    else if v.op = "add" then .ok (current + v.quantity)
    else
      let t := current - v.quantity
      if t < 0 then .error .insufficientStock else .ok t
  match targetRes with
  | .error e => (.error e, s)
  | .ok target =>
    let onHandB := onHandSum E s.quants v.product.id loc
    let availB := availSum E s.reservations s.quants v.product.id loc
    let upd : Nat × State :=
      match quantFound with
      | some q => (q.qid, { s with quants := setQuantInv s.quants q.qid target })
      | none =>
        (s.nextQid,
          { s with
            quants := s.quants ++ [(⟨s.nextQid, v.product.id, loc, 0, some target⟩ : Quant)]
            nextQid := s.nextQid + 1 })
    let ct :=
      if v.op = "set" then ChangeType.adjust_set
      else if v.op = "add" then ChangeType.adjust_add
      else if v.op = "subtract" then ChangeType.adjust_subtract
      else ChangeType.other
    let e := _log_quant_change (some upd.1) v.product.id loc ct
      onHandB onHandB availB availB (some loc) (some loc)
      ("API adjust barcode=" ++ v.barcode) "adjust"
    let s2 := { upd.2 with audit := upd.2.audit ++ [e] }
    (.ok (⟨v.product.name, v.barcode, v.op, v.quantity, current, target, v.w.name⟩ :
      AdjustResult), s2)

/-- `POST /api/inventory/adjust`: validate, then mutate; every error
response is returned with the state untouched. -/
def adjust_inventory (E : Env) (req : AdjustRequest) (s : State) :
    Except AdjustError AdjustResult × State :=
  match validateAdjust E req with
  | .error e => (.error e, s)
  | .ok v => performAdjust E v s

/-! ### Well-formedness predicates -/

/-- At most one current ledger row per (product, location) pair
(spec §3, StockQuant identity). -/
def pairUnique (qs : List Quant) : Prop :=
  qs.Pairwise (fun a b => a.product ≠ b.product ∨ a.locId ≠ b.locId)

/-- Ledger row ids are distinct. -/
def qidsNodup (qs : List Quant) : Prop := (qs.map (·.qid)).Nodup

/-- Reservation record ids are distinct. -/
def ridsNodup (res : List Reservation) : Prop := (res.map (·.rid)).Nodup

/-- Pending reservation amounts are non-negative. -/
def resNonneg (res : List Reservation) : Prop := ∀ r ∈ res, 0 ≤ r.amount

/-- Every pending reservation is backed by a ledger row at its exact
(product, location) pair. -/
def resCovered (s : State) : Prop :=
  ∀ r ∈ s.reservations, ∃ q ∈ s.quants, q.product = r.product ∧ q.locId = r.locId

/-- The fresh-id counters dominate all allocated ids. -/
def qidFresh (s : State) : Prop := ∀ q ∈ s.quants, q.qid < s.nextQid

/-- The fresh-id counter for reservations dominates all allocated ids. -/
def ridFresh (s : State) : Prop := ∀ r ∈ s.reservations, r.rid < s.nextRid

/-- Store well-formedness: unique row pairs and record ids, fresh counters,
non-negative reservation amounts, reservations backed by rows. -/
def WF (s : State) : Prop :=
  pairUnique s.quants ∧ qidsNodup s.quants ∧ qidFresh s ∧
    ridsNodup s.reservations ∧ ridFresh s ∧ resNonneg s.reservations ∧ resCovered s

/-- The protected invariant of the spec: no ledger row has a negative
available quantity. -/
def availInv (s : State) : Prop :=
  ∀ q ∈ s.quants, 0 ≤ available_quantity s.reservations q

/-- Decidable equality on `Except`, so that endpoint outcomes can be
compared on concrete inputs. -/
instance {e a : Type} [DecidableEq e] [DecidableEq a] : DecidableEq (Except e a) := fun x y =>
  match x, y with
  | .error e1, .error e2 =>
    if h : e1 = e2 then .isTrue (by rw [h]) else .isFalse (by intro hc; cases hc; exact h rfl)
  | .error _, .ok _ => .isFalse (by intro hc; cases hc)
  | .ok _, .error _ => .isFalse (by intro hc; cases hc)
  | .ok a1, .ok a2 =>
    if h : a1 = a2 then .isTrue (by rw [h]) else .isFalse (by intro hc; cases hc; exact h rfl)

/-- Shared concrete environment for witnesses: one product, two warehouses
whose stock locations are the flat locations 1 and 2. -/
def sampleEnv : Env :=
  ⟨[⟨1, "B", "Prod"⟩], [⟨1, "WH1", 1⟩, ⟨2, "WH2", 2⟩], fun l => [l]⟩

/-- Shared concrete store: ten on-hand units of product 1 at location 1. -/
def sampleState : State := ⟨[⟨10, 1, 1, 10, none⟩], [], [], 100, 200⟩

/-- A store with no ledger rows at all. -/
def emptyStockState : State := ⟨[], [], [], 100, 200⟩

/-- A ledger row with its staged counted quantity blanked out: what remains
is exactly the identity and on-hand data an adjustment must not touch. -/
def eraseCounted (q : Quant) : Quant :=
  ⟨q.qid, q.product, q.locId, q.quantity, none⟩

/-- Concrete store with a destination-side row: product 1 has ten units at
location 1 and an empty row at location 2. -/
def stA : State := ⟨[⟨10, 1, 1, 10, none⟩, ⟨11, 1, 2, 0, none⟩], [], [], 100, 200⟩

/-- Same ledger as `stA` plus a pending reservation of 3 units at the
destination location 2, which lowers availability there. -/
def stB : State :=
  ⟨[⟨10, 1, 1, 10, none⟩, ⟨11, 1, 2, 0, none⟩], [⟨50, 1, 2, 3⟩], [], 100, 200⟩

/-! ### Basic lemmas about reserved quantities -/

theorem reserved_quantity_nil (p l : Nat) : reserved_quantity [] p l = 0 := rfl

theorem reserved_quantity_cons (r : Reservation) (res : List Reservation) (p l : Nat) :
    reserved_quantity (r :: res) p l =
      (if r.product == p && r.locId == l then r.amount else 0) + reserved_quantity res p l := by
  simp only [reserved_quantity, List.filter_cons]
  split <;> simp

theorem reserved_quantity_append (res₁ res₂ : List Reservation) (p l : Nat) :
    reserved_quantity (res₁ ++ res₂) p l =
      reserved_quantity res₁ p l + reserved_quantity res₂ p l := by
  simp [reserved_quantity, List.filter_append]

theorem reserved_quantity_nonneg {res : List Reservation} (h : resNonneg res) (p l : Nat) :
    0 ≤ reserved_quantity res p l := by
  induction res with
  | nil => simp [reserved_quantity_nil]
  | cons r rs ih =>
    have hr : 0 ≤ r.amount := h r (by simp)
    have hrs : resNonneg rs := fun x hx => h x (by simp [hx])
    rw [reserved_quantity_cons]
    have := ih hrs
    split <;> linarith

theorem reduceRes_cons (i : Nat) (amt : ℚ) (r : Reservation) (res : List Reservation) :
    reduceRes i amt (r :: res) =
      if r.rid == i then
        (if r.amount - amt ≤ 0 then reduceRes i amt res
         else { r with amount := r.amount - amt } :: reduceRes i amt res)
      else r :: reduceRes i amt res := by
  by_cases hr : r.rid == i
  · have hr2 : r.rid = i := by simpa using hr
    by_cases ha : r.amount - amt ≤ 0
    · have ha2 : r.amount ≤ amt := by linarith
      simp [reduceRes, List.filterMap_cons, hr, hr2, ha, ha2]
    · have ha2 : ¬r.amount ≤ amt := by linarith
      simp [reduceRes, List.filterMap_cons, hr, hr2, ha, ha2]
  · have hr2 : ¬r.rid = i := by simpa using hr
    simp [reduceRes, List.filterMap_cons, hr, hr2]

theorem mem_reduceRes {res : List Reservation} {i : Nat} {amt : ℚ} {x : Reservation}
    (hx : x ∈ reduceRes i amt res) :
    ∃ r ∈ res, x.rid = r.rid ∧ x.product = r.product ∧ x.locId = r.locId ∧
      (x = r ∨ x.amount = r.amount - amt) := by
  induction res with
  | nil => simp [reduceRes] at hx
  | cons r rs ih =>
    rw [reduceRes_cons] at hx
    by_cases hr : r.rid == i
    · rw [if_pos hr] at hx
      by_cases ha : r.amount - amt ≤ 0
      · rw [if_pos ha] at hx
        obtain ⟨y, hy, hrest⟩ := ih hx
        exact ⟨y, by simp [hy], hrest⟩
      · rw [if_neg ha] at hx
        rcases List.mem_cons.mp hx with h | h
        · exact ⟨r, by simp, by simp [h]⟩
        · obtain ⟨y, hy, hrest⟩ := ih h
          exact ⟨y, by simp [hy], hrest⟩
    · rw [if_neg hr] at hx
      rcases List.mem_cons.mp hx with h | h
      · exact ⟨r, by simp, by simp [h]⟩
      · obtain ⟨y, hy, hrest⟩ := ih h
        exact ⟨y, by simp [hy], hrest⟩

theorem resNonneg_reduceRes {res : List Reservation} (h : resNonneg res) (i : Nat) (amt : ℚ) :
    resNonneg (reduceRes i amt res) := by
  intro x hx
  induction res with
  | nil => simp [reduceRes] at hx
  | cons r rs ih =>
    have hrs : resNonneg rs := fun y hy => h y (by simp [hy])
    rw [reduceRes_cons] at hx
    by_cases hr : r.rid == i
    · rw [if_pos hr] at hx
      by_cases ha : r.amount - amt ≤ 0
      · exact ih hrs (by rwa [if_pos ha] at hx)
      · rw [if_neg ha] at hx
        rcases List.mem_cons.mp hx with hh | hh
        · subst hh; simpa using le_of_lt (lt_of_not_ge ha)
        · exact ih hrs hh
    · rw [if_neg hr] at hx
      rcases List.mem_cons.mp hx with hh | hh
      · subst hh; exact h x (by simp)
      · exact ih hrs hh

theorem rids_reduceRes_sublist (res : List Reservation) (i : Nat) (amt : ℚ) :
    ((reduceRes i amt res).map (·.rid)).Sublist (res.map (·.rid)) := by
  induction res with
  | nil => simp [reduceRes]
  | cons r rs ih =>
    rw [reduceRes_cons]
    by_cases hr : r.rid == i
    · rw [if_pos hr]
      by_cases ha : r.amount - amt ≤ 0
      · rw [if_pos ha]
        simpa using List.Sublist.cons r.rid ih
      · rw [if_neg ha]
        simpa using List.Sublist.cons₂ r.rid ih
    · rw [if_neg hr]
      simpa using List.Sublist.cons₂ r.rid ih

theorem reserved_quantity_reduceRes_le {res : List Reservation} (hnn : resNonneg res)
    {amt : ℚ} (hamt : 0 ≤ amt) (i : Nat) (p l : Nat) :
    reserved_quantity (reduceRes i amt res) p l ≤ reserved_quantity res p l := by
  induction res with
  | nil => simp [reduceRes]
  | cons r rs ih =>
    have hrs : resNonneg rs := fun y hy => hnn y (by simp [hy])
    have hr0 : 0 ≤ r.amount := hnn r (by simp)
    have h1 := ih hrs
    rw [reduceRes_cons]
    by_cases hr : r.rid == i
    · rw [if_pos hr]
      by_cases ha : r.amount - amt ≤ 0
      · rw [if_pos ha, reserved_quantity_cons]
        have hite : (0:ℚ) ≤ (if r.product == p && r.locId == l then r.amount else 0) := by
          split <;> simp [hr0]
        linarith
      · rw [if_neg ha, reserved_quantity_cons, reserved_quantity_cons]
        have h2 : ((if ({ r with amount := r.amount - amt } : Reservation).product == p &&
            ({ r with amount := r.amount - amt } : Reservation).locId == l then
            ({ r with amount := r.amount - amt } : Reservation).amount else 0) : ℚ) ≤
            (if r.product == p && r.locId == l then r.amount else 0) := by
          simp only
          split <;> [linarith; simp [hr0]]
        linarith
    · rw [if_neg hr, reserved_quantity_cons, reserved_quantity_cons]
      linarith

theorem reserved_quantity_reduceRes_eq {res : List Reservation} {i : Nat} {p l : Nat}
    (hno : ∀ r ∈ res, r.rid = i → ¬(r.product = p ∧ r.locId = l)) (amt : ℚ) :
    reserved_quantity (reduceRes i amt res) p l = reserved_quantity res p l := by
  induction res with
  | nil => simp [reduceRes]
  | cons r rs ih =>
    have hrs : ∀ x ∈ rs, x.rid = i → ¬(x.product = p ∧ x.locId = l) :=
      fun x hx => hno x (by simp [hx])
    rw [reduceRes_cons]
    by_cases hr : r.rid == i
    · have hpair : ¬(r.product = p ∧ r.locId = l) := hno r (by simp) (by simpa using hr)
      have hzero : (if r.product == p && r.locId == l then r.amount else (0:ℚ)) = 0 := by
        split
        · next hcond =>
          simp only [Bool.and_eq_true, beq_iff_eq] at hcond
          exact absurd hcond hpair
        · rfl
      rw [if_pos hr]
      by_cases ha : r.amount - amt ≤ 0
      · rw [if_pos ha, ih hrs, reserved_quantity_cons, hzero]; ring
      · rw [if_neg ha, reserved_quantity_cons, reserved_quantity_cons, ih hrs]
        have hzero2 : (if ({ r with amount := r.amount - amt } : Reservation).product == p &&
            ({ r with amount := r.amount - amt } : Reservation).locId == l then
            ({ r with amount := r.amount - amt } : Reservation).amount else (0:ℚ)) = 0 := by
          split
          · next hcond =>
            simp only [Bool.and_eq_true, beq_iff_eq] at hcond
            exact absurd hcond hpair
          · rfl
        rw [hzero, hzero2]
    · rw [if_neg hr, reserved_quantity_cons, reserved_quantity_cons, ih hrs]

theorem reserved_quantity_filter_le {res : List Reservation} (hnn : resNonneg res)
    (g : Reservation → Bool) (p l : Nat) :
    reserved_quantity (res.filter g) p l ≤ reserved_quantity res p l := by
  induction res with
  | nil => simp [reserved_quantity_nil]
  | cons r rs ih =>
    have hrs : resNonneg rs := fun y hy => hnn y (by simp [hy])
    have hr0 : 0 ≤ r.amount := hnn r (by simp)
    have h1 := ih hrs
    rw [List.filter_cons]
    by_cases hg : g r
    · rw [if_pos hg, reserved_quantity_cons, reserved_quantity_cons]
      linarith
    · rw [if_neg hg, reserved_quantity_cons]
      have hite : (0:ℚ) ≤ (if r.product == p && r.locId == l then r.amount else 0) := by
        split <;> simp [hr0]
      linarith

theorem reserved_quantity_filter_rid_eq {res : List Reservation} {i p l : Nat}
    (hno : ∀ r ∈ res, r.rid = i → ¬(r.product = p ∧ r.locId = l)) :
    reserved_quantity (res.filter (fun r => r.rid != i)) p l = reserved_quantity res p l := by
  induction res with
  | nil => simp
  | cons r rs ih =>
    have hrs : ∀ x ∈ rs, x.rid = i → ¬(x.product = p ∧ x.locId = l) :=
      fun x hx => hno x (by simp [hx])
    rw [List.filter_cons]
    by_cases hri : r.rid = i
    · have hpair : ¬(r.product = p ∧ r.locId = l) := hno r (by simp) hri
      have hzero : (if r.product == p && r.locId == l then r.amount else (0:ℚ)) = 0 := by
        split
        · next hcond =>
          simp only [Bool.and_eq_true, beq_iff_eq] at hcond
          exact absurd hcond hpair
        · rfl
      have hgr : ¬((r.rid != i) = true) := by simp [hri]
      rw [if_neg hgr, ih hrs, reserved_quantity_cons, hzero]
      ring
    · have hgr : (r.rid != i) = true := by simp [hri]
      rw [if_pos hgr, reserved_quantity_cons, reserved_quantity_cons, ih hrs]

theorem mem_cancelLoop {q : Quant} {rids : List Nat} {res : List Reservation}
    {x : Reservation} (hx : x ∈ cancelLoop q rids res) : x ∈ res := by
  induction rids generalizing res with
  | nil => simpa [cancelLoop] using hx
  | cons i rest ih =>
    rw [cancelLoop] at hx
    by_cases hv : 0 ≤ available_quantity (res.filter (fun r => r.rid != i)) q
    · rw [if_pos hv] at hx
      exact (List.mem_filter.mp hx).1
    · rw [if_neg hv] at hx
      exact (List.mem_filter.mp (ih hx)).1

theorem resNonneg_cancelLoop {q : Quant} {rids : List Nat} {res : List Reservation}
    (hnn : resNonneg res) : resNonneg (cancelLoop q rids res) :=
  fun x hx => hnn x (mem_cancelLoop hx)

theorem rids_cancelLoop_sublist (q : Quant) (rids : List Nat) (res : List Reservation) :
    ((cancelLoop q rids res).map (·.rid)).Sublist (res.map (·.rid)) := by
  induction rids generalizing res with
  | nil => simp [cancelLoop]
  | cons i rest ih =>
    rw [cancelLoop]
    have hsub : ((res.filter (fun r => r.rid != i)).map (·.rid)).Sublist (res.map (·.rid)) :=
      (List.filter_sublist res).map _
    by_cases hv : 0 ≤ available_quantity (res.filter (fun r => r.rid != i)) q
    · rw [if_pos hv]; exact hsub
    · rw [if_neg hv]
      exact (ih _).trans hsub

theorem reserved_quantity_cancelLoop_le {res : List Reservation} (hnn : resNonneg res)
    (q : Quant) (rids : List Nat) (p l : Nat) :
    reserved_quantity (cancelLoop q rids res) p l ≤ reserved_quantity res p l := by
  induction rids generalizing res with
  | nil => simp [cancelLoop]
  | cons i rest ih =>
    rw [cancelLoop]
    have hle : reserved_quantity (res.filter (fun r => r.rid != i)) p l ≤
        reserved_quantity res p l := reserved_quantity_filter_le hnn _ p l
    have hnn2 : resNonneg (res.filter (fun r => r.rid != i)) :=
      fun y hy => hnn y (List.mem_filter.mp hy).1
    by_cases hv : 0 ≤ available_quantity (res.filter (fun r => r.rid != i)) q
    · rw [if_pos hv]; exact hle
    · rw [if_neg hv]
      exact (ih hnn2).trans hle

theorem reserved_quantity_cancelLoop_eq {res : List Reservation} {q : Quant}
    {rids : List Nat} {p l : Nat}
    (hno : ∀ i ∈ rids, ∀ r ∈ res, r.rid = i → ¬(r.product = p ∧ r.locId = l)) :
    reserved_quantity (cancelLoop q rids res) p l = reserved_quantity res p l := by
  induction rids generalizing res with
  | nil => simp [cancelLoop]
  | cons i rest ih =>
    rw [cancelLoop]
    have heq : reserved_quantity (res.filter (fun r => r.rid != i)) p l =
        reserved_quantity res p l :=
      reserved_quantity_filter_rid_eq (fun r hr => hno i (by simp) r hr)
    have hrest : ∀ j ∈ rest, ∀ r ∈ res.filter (fun r => r.rid != i), r.rid = j →
        ¬(r.product = p ∧ r.locId = l) :=
      fun j hj r hr => hno j (by simp [hj]) r (List.mem_filter.mp hr).1
    by_cases hv : 0 ≤ available_quantity (res.filter (fun r => r.rid != i)) q
    · rw [if_pos hv]; exact heq
    · rw [if_neg hv]
      rw [ih hrest, heq]

theorem mem_insertByAmountDesc {r x : Reservation} {l : List Reservation} :
    x ∈ insertByAmountDesc r l ↔ x = r ∨ x ∈ l := by
  induction l with
  | nil => simp [insertByAmountDesc]
  | cons y ys ih =>
    rw [insertByAmountDesc]
    by_cases h : y.amount < r.amount
    · rw [if_pos h]; simp
    · rw [if_neg h]
      simp only [List.mem_cons, ih]
      tauto

theorem mem_sortByAmountDesc {x : Reservation} {l : List Reservation} :
    x ∈ sortByAmountDesc l ↔ x ∈ l := by
  induction l with
  | nil => simp [sortByAmountDesc]
  | cons y ys ih =>
    rw [sortByAmountDesc, mem_insertByAmountDesc, ih]
    simp

theorem mem_reduceLoop {cands res : List Reservation} {rem : ℚ} {x : Reservation}
    (hx : x ∈ reduceLoop cands res rem) :
    ∃ r ∈ res, x.rid = r.rid ∧ x.product = r.product ∧ x.locId = r.locId := by
  induction cands generalizing res rem with
  | nil => exact ⟨x, by simpa [reduceLoop] using hx, rfl, rfl, rfl⟩
  | cons c rest ih =>
    rw [reduceLoop] at hx
    by_cases hr : rem ≤ 0
    · exact ⟨x, by rwa [if_pos hr] at hx, rfl, rfl, rfl⟩
    · rw [if_neg hr] at hx
      obtain ⟨r, hr1, hr2, hr3, hr4⟩ := ih hx
      obtain ⟨r0, hr0, e1, e2, e3, _⟩ := mem_reduceRes hr1
      exact ⟨r0, hr0, by rw [hr2, e1], by rw [hr3, e2], by rw [hr4, e3]⟩

theorem resNonneg_reduceLoop {cands res : List Reservation} {rem : ℚ}
    (hnn : resNonneg res) : resNonneg (reduceLoop cands res rem) := by
  induction cands generalizing res rem with
  | nil => simpa [reduceLoop] using hnn
  | cons c rest ih =>
    rw [reduceLoop]
    by_cases hr : rem ≤ 0
    · rwa [if_pos hr]
    · rw [if_neg hr]
      exact ih (resNonneg_reduceRes hnn _ _)

theorem rids_reduceLoop_sublist (cands res : List Reservation) (rem : ℚ) :
    ((reduceLoop cands res rem).map (·.rid)).Sublist (res.map (·.rid)) := by
  induction cands generalizing res rem with
  | nil => simp [reduceLoop]
  | cons c rest ih =>
    rw [reduceLoop]
    by_cases hr : rem ≤ 0
    · rw [if_pos hr]
    · rw [if_neg hr]
      exact (ih _ _).trans (rids_reduceRes_sublist res c.rid _)

theorem reserved_quantity_reduceLoop_le {cands res : List Reservation} {rem : ℚ}
    (hnn : resNonneg res) (hc : ∀ c ∈ cands, 0 ≤ c.amount) (p l : Nat) :
    reserved_quantity (reduceLoop cands res rem) p l ≤ reserved_quantity res p l := by
  induction cands generalizing res rem with
  | nil => simp [reduceLoop]
  | cons c rest ih =>
    rw [reduceLoop]
    by_cases hr : rem ≤ 0
    · rw [if_pos hr]
    · rw [if_neg hr]
      have hamt : 0 ≤ min c.amount rem := le_min (hc c (by simp)) (by linarith)
      have h1 : reserved_quantity (reduceRes c.rid (min c.amount rem) res) p l ≤
          reserved_quantity res p l := reserved_quantity_reduceRes_le hnn hamt c.rid p l
      have h2 : reserved_quantity
          (reduceLoop rest (reduceRes c.rid (min c.amount rem) res) (rem - min c.amount rem)) p l ≤
          reserved_quantity (reduceRes c.rid (min c.amount rem) res) p l :=
        ih (resNonneg_reduceRes hnn c.rid (min c.amount rem))
          (fun x hx => hc x (by simp [hx]))
      exact h2.trans h1

theorem reserved_quantity_reduceLoop_eq {cands res : List Reservation} {rem : ℚ} {p l : Nat}
    (hno : ∀ c ∈ cands, ∀ r ∈ res, r.rid = c.rid → ¬(r.product = p ∧ r.locId = l)) :
    reserved_quantity (reduceLoop cands res rem) p l = reserved_quantity res p l := by
  induction cands generalizing res rem with
  | nil => simp [reduceLoop]
  | cons c rest ih =>
    rw [reduceLoop]
    by_cases hr : rem ≤ 0
    · rw [if_pos hr]
    · rw [if_neg hr]
      have h1 : reserved_quantity (reduceRes c.rid (min c.amount rem) res) p l =
          reserved_quantity res p l :=
        reserved_quantity_reduceRes_eq (fun r hrm => hno c (by simp) r hrm) _
      have hrest : ∀ c2 ∈ rest, ∀ r ∈ reduceRes c.rid (min c.amount rem) res,
          r.rid = c2.rid → ¬(r.product = p ∧ r.locId = l) := by
        intro c2 hc2 r hrm hrid
        obtain ⟨r0, hr0, e1, e2, e3, _⟩ := mem_reduceRes hrm
        intro hpair
        exact hno c2 (by simp [hc2]) r0 hr0 (by rw [← e1, hrid]) (by rw [← e2, ← e3]; exact hpair)
      rw [ih hrest, h1]

theorem forall₂_compose {α : Type} {R S : α → α → Prop} {l1 l2 l3 : List α}
    (h12 : List.Forall₂ R l1 l2) (h23 : List.Forall₂ S l2 l3) :
    List.Forall₂ (fun a c => ∃ b, R a b ∧ S b c) l1 l3 := by
  induction h12 generalizing l3 with
  | nil => cases h23; exact List.Forall₂.nil
  | @cons a b la lb hab hrest ih =>
    cases h23 with
    | cons hbc h2 => exact List.Forall₂.cons ⟨b, hab, hbc⟩ (ih h2)

theorem forall₂_map_self {α : Type} (f : α → α) (R : α → α → Prop) (l : List α)
    (h : ∀ a ∈ l, R a (f a)) : List.Forall₂ R l (l.map f) := by
  rw [List.forall₂_map_right_iff]
  exact List.forall₂_same.mpr h

theorem find?_qid_mem {qs : List Quant} {i : Nat} {q : Quant}
    (h : qs.find? (·.qid == i) = some q) : q ∈ qs ∧ q.qid = i :=
  ⟨List.mem_of_find?_eq_some h, by simpa using List.find?_some h⟩

theorem qid_unique {qs : List Quant} (hnd : qidsNodup qs) {a b : Quant}
    (ha : a ∈ qs) (hb : b ∈ qs) (hab : a.qid = b.qid) : a = b :=
  List.inj_on_of_nodup_map hnd ha hb hab

theorem setQuantQty_map_qid (qs : List Quant) (i : Nat) (v : ℚ) :
    (setQuantQty qs i v).map (·.qid) = qs.map (·.qid) := by
  simp only [setQuantQty, List.map_map]
  refine List.map_congr_left fun a ha => ?_
  simp only [Function.comp_apply]
  split <;> rfl

theorem setQuantInv_map_qid (qs : List Quant) (i : Nat) (v : ℚ) :
    (setQuantInv qs i v).map (·.qid) = qs.map (·.qid) := by
  simp only [setQuantInv, List.map_map]
  refine List.map_congr_left fun a ha => ?_
  simp only [Function.comp_apply]
  split <;> rfl

theorem find?_qid_cons_pos {a : Quant} {as : List Quant} {i : Nat}
    (ha : (a.qid == i) = true) : (a :: as).find? (·.qid == i) = some a := by
  rw [List.find?_cons, ha]

theorem find?_qid_cons_neg {a : Quant} {as : List Quant} {i : Nat}
    (ha : (a.qid == i) = false) : (a :: as).find? (·.qid == i) = as.find? (·.qid == i) := by
  rw [List.find?_cons, ha]

theorem pairUnique_setQuantQty {qs : List Quant} (h : pairUnique qs) (i : Nat) (v : ℚ) :
    pairUnique (setQuantQty qs i v) := by
  unfold pairUnique setQuantQty
  rw [List.pairwise_map]
  refine h.imp ?_
  intro a b hab
  by_cases ha : (a.qid == i) = true <;> by_cases hb : (b.qid == i) = true <;>
    simpa [ha, hb] using hab

theorem find?_setQuantQty {qs : List Quant} {i : Nat} {q : Quant} (v : ℚ)
    (h : qs.find? (·.qid == i) = some q) :
    (setQuantQty qs i v).find? (·.qid == i) = some { q with quantity := v } := by
  induction qs with
  | nil => simp at h
  | cons a as ih =>
    by_cases ha : (a.qid == i) = true
    · rw [find?_qid_cons_pos ha] at h
      injection h with h
      subst h
      have hp : a.qid = i := by simpa using ha
      have hstep : setQuantQty (a :: as) i v = { a with quantity := v } :: setQuantQty as i v := by
        simp [setQuantQty, ha, hp]
      rw [hstep]
      exact find?_qid_cons_pos ha
    · have ha2 : (a.qid == i) = false := by simpa using ha
      rw [find?_qid_cons_neg ha2] at h
      have hp : ¬a.qid = i := by simpa using ha
      have hstep : setQuantQty (a :: as) i v = a :: setQuantQty as i v := by
        simp [setQuantQty, ha, hp]
      rw [hstep, find?_qid_cons_neg ha2]
      exact ih h

theorem find?_qid_forall₂ {R : Quant → Quant → Prop} {l1 l2 : List Quant}
    (h : List.Forall₂ R l1 l2) (hR : ∀ a b, R a b → b.qid = a.qid) (i : Nat) :
    (l1.find? (·.qid == i) = none ∧ l2.find? (·.qid == i) = none) ∨
      ∃ a b, l1.find? (·.qid == i) = some a ∧ l2.find? (·.qid == i) = some b ∧ R a b := by
  induction h with
  | nil => exact Or.inl ⟨rfl, rfl⟩
  | @cons a b la lb hab hrest ih =>
    by_cases hai : (a.qid == i) = true
    · have hbi : (b.qid == i) = true := by rw [hR a b hab]; exact hai
      exact Or.inr ⟨a, b, find?_qid_cons_pos hai, find?_qid_cons_pos hbi, hab⟩
    · have hai2 : (a.qid == i) = false := by simpa using hai
      have hbi2 : (b.qid == i) = false := by rw [hR a b hab]; exact hai2
      rw [find?_qid_cons_neg hai2, find?_qid_cons_neg hbi2]
      exact ih

theorem reserved_quantity_addRes (s : State) (p loc : Nat) (amt : ℚ) (pp ll : Nat) :
    reserved_quantity (addReservation s p loc amt).reservations pp ll =
      reserved_quantity s.reservations pp ll + (if p == pp && loc == ll then amt else 0) := by
  simp only [addReservation]
  rw [reserved_quantity_append, reserved_quantity_cons, reserved_quantity_nil]
  simp

theorem rid_unique {res : List Reservation} (hnd : ridsNodup res) {a b : Reservation}
    (ha : a ∈ res) (hb : b ∈ res) (hab : a.rid = b.rid) : a = b :=
  List.inj_on_of_nodup_map hnd ha hb hab

/-- Facts established by one run of the repair tiers (`repairAvail`) on the
row `q` (with id `i`) of a well-formed state. -/
theorem repairAvail_spec (E : Env) (p srcLoc : Nat) (s : State) (i : Nat) (q : Quant)
    (hPU : pairUnique s.quants) (hQN : qidsNodup s.quants)
    (hRN : ridsNodup s.reservations) (hNN : resNonneg s.reservations)
    (hq : q ∈ s.quants) (hqi : q.qid = i) (hqp : q.product = p)
    (hqc : childOf E q.locId srcLoc = true)
    (htrans : ∀ a b c, childOf E a b = true → childOf E b c = true → childOf E a c = true) :
    (repairAvail E p s i q).nextQid = s.nextQid ∧
    (repairAvail E p s i q).nextRid = s.nextRid ∧
    (repairAvail E p s i q).audit = s.audit ∧
    resNonneg (repairAvail E p s i q).reservations ∧
    ((repairAvail E p s i q).reservations.map (·.rid)).Sublist (s.reservations.map (·.rid)) ∧
    (∀ r2 ∈ (repairAvail E p s i q).reservations,
      ∃ r ∈ s.reservations, r2.product = r.product ∧ r2.locId = r.locId) ∧
    (∀ pp ll, reserved_quantity (repairAvail E p s i q).reservations pp ll ≤
      reserved_quantity s.reservations pp ll) ∧
    (∀ pp ll, (pp = p → childOf E ll srcLoc = false) →
      reserved_quantity (repairAvail E p s i q).reservations pp ll =
        reserved_quantity s.reservations pp ll) ∧
    ((repairAvail E p s i q).quants = s.quants ∨
      ∃ v, q.quantity ≤ v ∧ (repairAvail E p s i q).quants = setQuantQty s.quants i v) ∧
    (∀ a ∈ (repairAvail E p s i q).quants, a.qid = i →
      0 ≤ available_quantity (repairAvail E p s i q).reservations a) := by
  by_cases h0 : available_quantity s.reservations q < 0
  · unfold repairAvail
    rw [if_pos h0]
    dsimp only
    set cands := sortByAmountDesc
      ((s.reservations.filter
        (fun r => r.product == p && childOf E r.locId q.locId)).filter
        (fun r => 0 < r.amount)) with hcands
    set res1 := reduceLoop cands s.reservations (-available_quantity s.reservations q) with hres1
    have hcands_mem : ∀ c ∈ cands, c ∈ s.reservations ∧ c.product = p ∧
        childOf E c.locId q.locId = true ∧ 0 < c.amount := by
      intro c hc
      rw [hcands, mem_sortByAmountDesc] at hc
      obtain ⟨hc1, hc2⟩ := List.mem_filter.mp hc
      obtain ⟨hc3, hc4⟩ := List.mem_filter.mp hc1
      rcases Bool.and_eq_true _ _ ▸ hc4 with ⟨hcp, hcl⟩
      exact ⟨hc3, by simpa using hcp, hcl, by simpa using hc2⟩
    have hcands_pos : ∀ c ∈ cands, 0 ≤ c.amount :=
      fun c hc => le_of_lt (hcands_mem c hc).2.2.2
    -- facts for res1
    have hnn1 : resNonneg res1 := resNonneg_reduceLoop hNN
    have hsub1 : (res1.map (·.rid)).Sublist (s.reservations.map (·.rid)) :=
      rids_reduceLoop_sublist _ _ _
    have hrn1 : ridsNodup res1 := hsub1.nodup hRN
    have hmem1 : ∀ r2 ∈ res1, ∃ r ∈ s.reservations,
        r2.product = r.product ∧ r2.locId = r.locId := by
      intro r2 hr2
      obtain ⟨r, hr, _, e2, e3⟩ := mem_reduceLoop hr2
      exact ⟨r, hr, e2, e3⟩
    have hle1 : ∀ pp ll, reserved_quantity res1 pp ll ≤
        reserved_quantity s.reservations pp ll :=
      fun pp ll => reserved_quantity_reduceLoop_le hNN hcands_pos pp ll
    have heq1 : ∀ pp ll, (pp = p → childOf E ll srcLoc = false) →
        reserved_quantity res1 pp ll = reserved_quantity s.reservations pp ll := by
      intro pp ll hcond
      refine reserved_quantity_reduceLoop_eq ?_
      intro c hc r hr hrid hpair
      have hcm := hcands_mem c hc
      have hrc : r = c := rid_unique hRN hr hcm.1 hrid
      subst hrc
      have hppp : pp = p := hpair.1 ▸ hcm.2.1
      have hfalse : childOf E ll srcLoc = false := hcond hppp
      have htrue : childOf E ll srcLoc = true := by
        rw [hpair.2.symm]
        exact htrans r.locId q.locId srcLoc hcm.2.2.1 hqc
      rw [hfalse] at htrue
      exact Bool.false_ne_true htrue
    set rids2 := (res1.filter
      (fun r => r.product == p && childOf E r.locId q.locId)).map (·.rid) with hrids2
    set res2 := if available_quantity res1 q < 0 then cancelLoop q rids2 res1 else res1
      with hres2
    have hnn2 : resNonneg res2 := by
      rw [hres2]; split
      · exact resNonneg_cancelLoop hnn1
      · exact hnn1
    have hsub2 : (res2.map (·.rid)).Sublist (res1.map (·.rid)) := by
      rw [hres2]; split
      · exact rids_cancelLoop_sublist _ _ _
      · exact List.Sublist.refl _
    have hmem2 : ∀ r2 ∈ res2, r2 ∈ res1 := by
      intro r2 hr2
      rw [hres2] at hr2
      rcases ite_eq_or_eq (available_quantity res1 q < 0) (cancelLoop q rids2 res1) res1 with he | he
      · rw [he] at hr2; exact mem_cancelLoop hr2
      · rw [he] at hr2; exact hr2
    have hle2 : ∀ pp ll, reserved_quantity res2 pp ll ≤ reserved_quantity res1 pp ll := by
      intro pp ll
      rw [hres2]; split
      · exact reserved_quantity_cancelLoop_le hnn1 _ _ pp ll
      · exact le_refl _
    have heq2 : ∀ pp ll, (pp = p → childOf E ll srcLoc = false) →
        reserved_quantity res2 pp ll = reserved_quantity res1 pp ll := by
      intro pp ll hcond
      rw [hres2]; split
      · refine reserved_quantity_cancelLoop_eq ?_
        intro j hj r hr hrid hpair
        rw [hrids2] at hj
        obtain ⟨c1, hc1, hc1j⟩ := List.mem_map.mp hj
        obtain ⟨hc1m, hc1f⟩ := List.mem_filter.mp hc1
        have hrc : r = c1 := rid_unique hrn1 hr hc1m (by rw [hrid, hc1j])
        subst hrc
        rcases Bool.and_eq_true _ _ ▸ hc1f with ⟨hcp, hcl⟩
        have hppp : pp = p := hpair.1 ▸ (by simpa using hcp)
        have hfalse : childOf E ll srcLoc = false := hcond hppp
        have htrue : childOf E ll srcLoc = true := by
          rw [hpair.2.symm]
          exact htrans r.locId q.locId srcLoc hcl hqc
        rw [hfalse] at htrue
        exact Bool.false_ne_true htrue
      · rfl
    by_cases h2 : available_quantity res2 q < 0
    · rw [if_pos h2]
      refine ⟨rfl, rfl, rfl, hnn2, hsub2.trans hsub1, ?_, ?_, ?_, ?_, ?_⟩
      · intro r2 hr2
        exact hmem1 r2 (hmem2 r2 hr2)
      · intro pp ll
        exact (hle2 pp ll).trans (hle1 pp ll)
      · intro pp ll hcond
        rw [heq2 pp ll hcond, heq1 pp ll hcond]
      · exact Or.inr ⟨q.quantity + -available_quantity res2 q, by linarith, rfl⟩
      · intro a ha hai
        obtain ⟨b, hb, hba⟩ := List.mem_map.mp ha
        by_cases hbqid : (b.qid == i) = true
        · have hbq : b = q := qid_unique hQN hb hq (by rw [hqi]; simpa using hbqid)
          subst hbq
          rw [if_pos hbqid] at hba
          subst hba
          show 0 ≤ available_quantity res2
            { b with quantity := b.quantity + -available_quantity res2 b }
          unfold available_quantity at h2 ⊢
          simp only
          linarith
        · rw [if_neg hbqid] at hba
          subst hba
          exact absurd (by simp [hai]) hbqid
    · rw [if_neg h2]
      refine ⟨rfl, rfl, rfl, hnn2, hsub2.trans hsub1, ?_, ?_, ?_, Or.inl rfl, ?_⟩
      · intro r2 hr2
        exact hmem1 r2 (hmem2 r2 hr2)
      · intro pp ll
        exact (hle2 pp ll).trans (hle1 pp ll)
      · intro pp ll hcond
        rw [heq2 pp ll hcond, heq1 pp ll hcond]
      · intro a ha hai
        have haq : a = q := qid_unique hQN ha hq (by rw [hqi, hai])
        subst haq
        exact not_lt.mp h2
  · unfold repairAvail
    rw [if_neg h0]
    refine ⟨rfl, rfl, rfl, hNN, List.Sublist.refl _, ?_, ?_, ?_, Or.inl rfl, ?_⟩
    · intro r2 hr2
      exact ⟨r2, hr2, rfl, rfl⟩
    · intro pp ll
      exact le_refl _
    · intro pp ll hcond
      rfl
    · intro a ha hai
      have haq : a = q := qid_unique hQN ha hq (by rw [hqi, hai])
      subst haq
      exact not_lt.mp h0

theorem forall₂_mem_left {α β : Type} {R : α → β → Prop} {l1 : List α} {l2 : List β}
    (h : List.Forall₂ R l1 l2) {a : α} (ha : a ∈ l1) : ∃ b ∈ l2, R a b := by
  induction h with
  | nil => simp at ha
  | @cons x y lx ly hxy hrest ih =>
    rcases List.mem_cons.mp ha with h1 | h1
    · exact ⟨y, by simp, h1 ▸ hxy⟩
    · obtain ⟨b, hb, hab⟩ := ih h1
      exact ⟨b, by simp [hb], hab⟩

theorem qidFresh_of_map {s s2 : State}
    (h : s2.quants.map (·.qid) = s.quants.map (·.qid))
    (hn : s2.nextQid = s.nextQid) (hf : qidFresh s) : qidFresh s2 := by
  intro a ha
  have : a.qid ∈ s2.quants.map (·.qid) := List.mem_map.mpr ⟨a, ha, rfl⟩
  rw [h] at this
  obtain ⟨b, hb, hba⟩ := List.mem_map.mp this
  rw [hn, ← hba]
  exact hf b hb

theorem addReservation_quants (s : State) (p loc : Nat) (amt : ℚ) :
    (addReservation s p loc amt).quants = s.quants := rfl

theorem addReservation_ids (s : State) (p loc : Nat) (amt : ℚ)
    (hRN : ridsNodup s.reservations) (hRF : ridFresh s) :
    ridsNodup (addReservation s p loc amt).reservations ∧
    ridFresh (addReservation s p loc amt) := by
  constructor
  · unfold ridsNodup
    simp only [addReservation, List.map_append, List.map_cons, List.map_nil]
    rw [List.nodup_append]
    refine ⟨hRN, List.nodup_singleton _, ?_⟩
    intro x hx hx2
    obtain ⟨r, hr, hrx⟩ := List.mem_map.mp hx
    have : x = s.nextRid := by simpa using hx2
    have hlt := hRF r hr
    omega
  · intro r hr
    simp only [addReservation, List.mem_append, List.mem_singleton] at hr
    rcases hr with hr | hr
    · have := hRF r hr
      simp only [addReservation]
      omega
    · subst hr
      simp [addReservation]

theorem reserveRemaining_frame (additional : ℚ) (p : Nat) (s : State) (q2 : Quant) :
    (reserveRemaining additional p s q2).quants = s.quants ∧
    (reserveRemaining additional p s q2).nextQid = s.nextQid ∧
    (reserveRemaining additional p s q2).audit = s.audit := by
  unfold reserveRemaining
  dsimp only
  split <;> exact ⟨rfl, rfl, rfl⟩

theorem reserveExcess_frame (p : Nat) (s : State) (q3 : Quant) :
    (reserveExcess p s q3).quants = s.quants ∧
    (reserveExcess p s q3).nextQid = s.nextQid ∧
    (reserveExcess p s q3).audit = s.audit := by
  unfold reserveExcess
  dsimp only
  split <;> exact ⟨rfl, rfl, rfl⟩

theorem reserveRemaining_cases (additional : ℚ) (p : Nat) (s : State) (q2 : Quant) :
    reserveRemaining additional p s q2 = s ∨
    (0 < available_quantity s.reservations q2 ∧
      reserveRemaining additional p s q2 =
        addReservation s p q2.locId (available_quantity s.reservations q2)) := by
  unfold reserveRemaining
  dsimp only
  split
  · next h => exact Or.inr ⟨h.2, rfl⟩
  · exact Or.inl rfl

theorem reserveExcess_of_nonneg (p : Nat) (s : State) (q3 : Quant)
    (h : 0 ≤ available_quantity s.reservations q3) :
    reserveExcess p s q3 = s := by
  unfold reserveExcess
  dsimp only
  rw [if_neg (not_lt.mpr h)]

theorem forall₂_and_mem_both {α β : Type} {R : α → β → Prop} {l1 : List α} {l2 : List β}
    (h : List.Forall₂ R l1 l2) :
    List.Forall₂ (fun a b => a ∈ l1 ∧ b ∈ l2 ∧ R a b) l1 l2 := by
  induction h with
  | nil => exact List.Forall₂.nil
  | @cons x y lx ly hxy hrest ih =>
    refine List.Forall₂.cons ⟨by simp, by simp, hxy⟩ ?_
    refine ih.imp ?_
    intro a b hab
    exact ⟨by simp [hab.1], by simp [hab.2.1], hab.2.2⟩

theorem mem_pair_setQuantQty {qs : List Quant} {a : Quant} (ha : a ∈ qs) (i : Nat) (v : ℚ) :
    ∃ b ∈ setQuantQty qs i v, b.product = a.product ∧ b.locId = a.locId := by
  refine ⟨if (a.qid == i) = true then { a with quantity := v } else a, ?_, ?_, ?_⟩
  · exact List.mem_map.mpr ⟨a, ha, by split <;> rfl⟩
  · split <;> rfl
  · split <;> rfl

/-- Behaviour of one full `repairQuant` step on the row with id `i` of a
well-formed state: well-formedness is preserved, rows keep their identity
and never lose on-hand, availability of every row that was non-negative
stays non-negative, reserved quantities outside the source subtree are
untouched, and the repaired row ends with non-negative availability. -/
theorem repairQuant_spec (E : Env) (p srcLoc : Nat) (additional : ℚ) (s : State) (i : Nat)
    (hWF : WF s)
    (htrg : ∀ a ∈ s.quants, a.qid = i → a.product = p ∧ childOf E a.locId srcLoc = true)
    (htrans : ∀ a b c, childOf E a b = true → childOf E b c = true → childOf E a c = true) :
    WF (repairQuant E p additional s i) ∧
    (repairQuant E p additional s i).nextQid = s.nextQid ∧
    (repairQuant E p additional s i).audit = s.audit ∧
    List.Forall₂ (fun a b => b.qid = a.qid ∧ b.product = a.product ∧ b.locId = a.locId ∧
      b.inventory_quantity = a.inventory_quantity ∧ a.quantity ≤ b.quantity ∧
      (b = a ∨ (a.product = p ∧ childOf E a.locId srcLoc = true)))
      s.quants (repairQuant E p additional s i).quants ∧
    List.Forall₂ (fun a b => 0 ≤ available_quantity s.reservations a →
      0 ≤ available_quantity (repairQuant E p additional s i).reservations b)
      s.quants (repairQuant E p additional s i).quants ∧
    (∀ pp ll, (pp = p → childOf E ll srcLoc = false) →
      reserved_quantity (repairQuant E p additional s i).reservations pp ll =
        reserved_quantity s.reservations pp ll) ∧
    (∀ a ∈ (repairQuant E p additional s i).quants, a.qid = i →
      0 ≤ available_quantity (repairQuant E p additional s i).reservations a) := by
  obtain ⟨hPU, hQN, hQF, hRN, hRF, hNN, hCov⟩ := hWF
  unfold repairQuant
  cases hfind : s.quants.find? (·.qid == i) with
  | none =>
    refine ⟨⟨hPU, hQN, hQF, hRN, hRF, hNN, hCov⟩, rfl, rfl, ?_, ?_, ?_, ?_⟩
    · exact List.forall₂_same.mpr fun a ha => ⟨rfl, rfl, rfl, rfl, le_refl _, Or.inl rfl⟩
    · exact List.forall₂_same.mpr fun a ha h => h
    · intro pp ll hcond; rfl
    · intro a ha hai
      have := List.find?_eq_none.mp hfind a ha
      exact absurd (by simpa using hai) this
  | some q =>
    dsimp only
    obtain ⟨hq, hqi⟩ := find?_qid_mem hfind
    obtain ⟨hqp, hqc⟩ := htrg q hq hqi
    obtain ⟨hQ1, hR1, hA1, hNN1, hSub1, hMem1, hLe1, hEq1, hQuants1, hPost1⟩ :=
      repairAvail_spec E p srcLoc s i q hPU hQN hRN hNN hq hqi hqp hqc htrans
    set s1 := repairAvail E p s i q with hs1
    have hmapq : s1.quants.map (·.qid) = s.quants.map (·.qid) := by
      rcases hQuants1 with h | ⟨v, hvle, h⟩
      · rw [h]
      · rw [h]; exact setQuantQty_map_qid s.quants i v
    have hQN1 : qidsNodup s1.quants := by
      unfold qidsNodup
      rw [hmapq]
      exact hQN
    have hPU1 : pairUnique s1.quants := by
      rcases hQuants1 with h | ⟨v, hvle, h⟩
      · rw [h]; exact hPU
      · rw [h]; exact pairUnique_setQuantQty hPU i v
    have hforall1 : List.Forall₂ (fun a b => b.qid = a.qid ∧ b.product = a.product ∧
        b.locId = a.locId ∧ b.inventory_quantity = a.inventory_quantity ∧
        a.quantity ≤ b.quantity ∧ (b = a ∨ (a.product = p ∧ childOf E a.locId srcLoc = true)))
        s.quants s1.quants := by
      rcases hQuants1 with h | ⟨v, hvle, h⟩
      · rw [h]
        exact List.forall₂_same.mpr fun a ha => ⟨rfl, rfl, rfl, rfl, le_refl _, Or.inl rfl⟩
      · rw [h]
        refine forall₂_map_self _ _ _ fun a ha => ?_
        by_cases hai : (a.qid == i) = true
        · have haq : a = q := qid_unique hQN ha hq (by rw [hqi]; simpa using hai)
          subst haq
          rw [if_pos hai]
          exact ⟨rfl, rfl, rfl, rfl, hvle, Or.inr ⟨hqp, hqc⟩⟩
        · rw [if_neg hai]
          exact ⟨rfl, rfl, rfl, rfl, le_refl _, Or.inl rfl⟩
    obtain ⟨q1, hfind1, hq1qid, hq1prod, hq1loc, hq1qty⟩ :
        ∃ q1, s1.quants.find? (·.qid == i) = some q1 ∧ q1.qid = q.qid ∧
          q1.product = q.product ∧ q1.locId = q.locId ∧ q.quantity ≤ q1.quantity := by
      rcases hQuants1 with h | ⟨v, hvle, h⟩
      · exact ⟨q, by rw [h]; exact hfind, rfl, rfl, rfl, le_refl _⟩
      · exact ⟨{ q with quantity := v }, by rw [h]; exact find?_setQuantQty v hfind,
          rfl, rfl, rfl, hvle⟩
    rw [hfind1]
    dsimp only
    obtain ⟨hq1mem, _⟩ := find?_qid_mem hfind1
    set s2 := reserveRemaining additional p s1 q1 with hs2
    obtain ⟨hfr2q, hfr2n, hfr2a⟩ := reserveRemaining_frame additional p s1 q1
    have hfind2 : s2.quants.find? (·.qid == i) = some q1 := by rw [hfr2q]; exact hfind1
    rw [hfind2]
    dsimp only
    have hRN1 : ridsNodup s1.reservations := hSub1.nodup hRN
    have hRF1 : ridFresh s1 := by
      intro r hr
      have hrid : r.rid ∈ s1.reservations.map (·.rid) := List.mem_map.mpr ⟨r, hr, rfl⟩
      have := hSub1.mem hrid
      obtain ⟨r0, hr0, hr0e⟩ := List.mem_map.mp this
      rw [hR1, ← hr0e]
      exact hRF r0 hr0
    -- availability of the target row after the reserve-remaining step is zero
    -- or still the (non-negative) value it had after the repair tiers
    have hpost1q1 : 0 ≤ available_quantity s1.reservations q1 := hPost1 q1 hq1mem
      (by rw [hq1qid, hqi])
    have hpost2 : 0 ≤ available_quantity s2.reservations q1 := by
      rcases reserveRemaining_cases additional p s1 q1 with he | ⟨hpos, he⟩
      · rw [hs2, he]; exact hpost1q1
      · rw [hs2, he]
        unfold available_quantity
        rw [reserved_quantity_addRes]
        have hcond : (p == q1.product && q1.locId == q1.locId) = true := by
          simp [hq1prod, hqp]
        rw [if_pos hcond]
        unfold available_quantity at hpos
        linarith
    rw [reserveExcess_of_nonneg p s2 q1 hpost2]
    -- reserved quantities: outside the pair (p, q.locId) the reserve-remaining
    -- step adds nothing
    have hadd2 : ∀ pp ll, ¬(pp = p ∧ ll = q.locId) →
        reserved_quantity s2.reservations pp ll = reserved_quantity s1.reservations pp ll := by
      intro pp ll hne
      rcases reserveRemaining_cases additional p s1 q1 with he | ⟨hpos, he⟩
      · rw [hs2, he]
      · rw [hs2, he, reserved_quantity_addRes]
        have hcond : ¬((p == pp && q1.locId == ll) = true) := by
          simp only [Bool.and_eq_true, beq_iff_eq]
          rintro ⟨h1, h2⟩
          exact hne ⟨h1.symm, by rw [← h2, hq1loc]⟩
        rw [if_neg hcond]
        ring
    have hNN2 : resNonneg s2.reservations := by
      rcases reserveRemaining_cases additional p s1 q1 with he | ⟨hpos, he⟩
      · rw [hs2, he]; exact hNN1
      · rw [hs2, he]
        intro r hr
        simp only [addReservation, List.mem_append, List.mem_singleton] at hr
        rcases hr with hr | hr
        · exact hNN1 r hr
        · subst hr; exact le_of_lt hpos
    have hids2 : ridsNodup s2.reservations ∧ ridFresh s2 := by
      rcases reserveRemaining_cases additional p s1 q1 with he | ⟨hpos, he⟩
      · rw [hs2, he]; exact ⟨hRN1, hRF1⟩
      · rw [hs2, he]
        exact addReservation_ids s1 p q1.locId _ hRN1 hRF1
    have hCov2 : resCovered s2 := by
      intro r hr
      have hmemq : ∀ pr ll2, (∃ a ∈ s.quants, a.product = pr ∧ a.locId = ll2) →
          ∃ b ∈ s1.quants, b.product = pr ∧ b.locId = ll2 := by
        rintro pr ll2 ⟨a, ha, e1, e2⟩
        obtain ⟨b, hb, hrel⟩ := forall₂_mem_left hforall1 ha
        exact ⟨b, hb, hrel.2.1.trans e1, hrel.2.2.1.trans e2⟩
      rcases reserveRemaining_cases additional p s1 q1 with he | ⟨hpos, he⟩
      · rw [hs2, he] at hr
        obtain ⟨r0, hr0, e1, e2⟩ := hMem1 r hr
        obtain ⟨qc, hqc2, e3, e4⟩ := hCov r0 hr0
        obtain ⟨b, hb, e5, e6⟩ := hmemq r0.product r0.locId ⟨qc, hqc2, e3, e4⟩
        refine ⟨b, by rw [hfr2q]; exact hb, by rw [e5, e1], by rw [e6, e2]⟩
      · rw [hs2, he] at hr
        simp only [addReservation, List.mem_append, List.mem_singleton] at hr
        rcases hr with hr | hr
        · obtain ⟨r0, hr0, e1, e2⟩ := hMem1 r hr
          obtain ⟨qc, hqc2, e3, e4⟩ := hCov r0 hr0
          obtain ⟨b, hb, e5, e6⟩ := hmemq r0.product r0.locId ⟨qc, hqc2, e3, e4⟩
          refine ⟨b, by rw [hfr2q]; exact hb, by rw [e5, e1], by rw [e6, e2]⟩
        · subst hr
          exact ⟨q1, by rw [hfr2q]; exact hq1mem, by rw [hq1prod, hqp], rfl⟩
    have hQN2 : qidsNodup s2.quants := by
      unfold qidsNodup; rw [hfr2q]; exact hQN1
    have hPostF : ∀ a ∈ s2.quants, a.qid = i → 0 ≤ available_quantity s2.reservations a := by
      intro a ha hai
      have haq1 : a = q1 := by
        refine qid_unique hQN2 ha ?_ ?_
        · rw [hfr2q]; exact hq1mem
        · rw [hai, hq1qid, hqi]
      subst haq1
      exact hpost2
    -- pair of any row other than the target differs from (p, q.locId)
    have hpairne : ∀ a ∈ s.quants, ¬a.qid = i → ¬(a.product = p ∧ a.locId = q.locId) := by
      rintro a ha hai ⟨e1, e2⟩
      have hane : a ≠ q := fun h => hai (by rw [h, hqi])
      have hsymm : Symmetric fun x y : Quant => x.product ≠ y.product ∨ x.locId ≠ y.locId := by
        intro x y h
        rcases h with h | h
        · exact Or.inl (Ne.symm h)
        · exact Or.inr (Ne.symm h)
      have := hPU.forall hsymm ha hq hane
      rcases this with h | h
      · exact h (by rw [e1, hqp])
      · exact h e2
    have hPU2 : pairUnique s2.quants := by
      unfold pairUnique
      rw [hfr2q]
      exact hPU1
    refine ⟨⟨hPU2, hQN2, ?_, hids2.1, hids2.2, hNN2, hCov2⟩, ?_, ?_, ?_, ?_, ?_, hPostF⟩
    · refine @qidFresh_of_map s1 s2 ?_ ?_ ?_
      · rw [hfr2q]
      · rw [hfr2n]
      · exact qidFresh_of_map hmapq hQ1 hQF
    · rw [hfr2n, hQ1]
    · rw [hfr2a, hA1]
    · rw [hfr2q]
      exact hforall1
    · -- availability monotone for rows that were non-negative
      rw [hfr2q]
      have hstep : ∀ a ∈ s.quants, ∀ b ∈ s1.quants, b.qid = a.qid → b.product = a.product →
          b.locId = a.locId → a.quantity ≤ b.quantity →
          0 ≤ available_quantity s.reservations a →
          0 ≤ available_quantity s2.reservations b := by
        intro a ha b hb e1 e2 e3 e4 h0
        by_cases hai : a.qid = i
        · -- target row: covered by the final postcondition
          exact hPostF b (by rw [hfr2q]; exact hb) (by rw [e1, hai])
        · have hne := hpairne a ha hai
          have hres : reserved_quantity s2.reservations b.product b.locId ≤
              reserved_quantity s.reservations a.product a.locId := by
            rw [e2, e3, hadd2 a.product a.locId hne]
            exact hLe1 a.product a.locId
          unfold available_quantity at h0 ⊢
          linarith
      refine (forall₂_and_mem_both hforall1).imp ?_
      intro a b hab
      obtain ⟨ha, hb, e1, e2, e3, e4, e5, _⟩ := hab
      exact fun h0 => hstep a ha b hb e1 e2 e3 e5 h0
    · intro pp ll hcond
      have hne : ¬(pp = p ∧ ll = q.locId) := by
        rintro ⟨e1, e2⟩
        have := hcond e1
        rw [e2] at this
        rw [this] at hqc
        exact Bool.false_ne_true hqc
      rw [hadd2 pp ll hne, hEq1 pp ll hcond]

theorem forall₂_mem_right {α β : Type} {R : α → β → Prop} {l1 : List α} {l2 : List β}
    (h : List.Forall₂ R l1 l2) {b : β} (hb : b ∈ l2) : ∃ a ∈ l1, R a b := by
  induction h with
  | nil => simp at hb
  | @cons x y lx ly hxy hrest ih =>
    rcases List.mem_cons.mp hb with h1 | h1
    · exact ⟨x, by simp, h1 ▸ hxy⟩
    · obtain ⟨a, ha, hab⟩ := ih h1
      exact ⟨a, by simp [ha], hab⟩

theorem forall₂_and {α β : Type} {R S : α → β → Prop} {l1 : List α} {l2 : List β}
    (hR : List.Forall₂ R l1 l2) (hS : List.Forall₂ S l1 l2) :
    List.Forall₂ (fun a b => R a b ∧ S a b) l1 l2 := by
  induction hR with
  | nil => cases hS; exact List.Forall₂.nil
  | @cons x y lx ly hxy hrest ih =>
    cases hS with
    | cons hxy2 hrest2 => exact List.Forall₂.cons ⟨hxy, hxy2⟩ (ih hrest2)

/-- Behaviour of the whole repair loop over the post-subtraction source
rows: well-formedness and non-negative availability are preserved, every
row in the processed list ends with non-negative availability, rows keep
their identity, and reserved quantities outside the source subtree are
untouched. -/
theorem repairLoop_spec (E : Env) (p srcLoc : Nat) (additional : ℚ) (qids : List Nat)
    (s : State) (hWF : WF s)
    (htrg : ∀ i ∈ qids, ∀ a ∈ s.quants, a.qid = i →
      a.product = p ∧ childOf E a.locId srcLoc = true)
    (htrans : ∀ a b c, childOf E a b = true → childOf E b c = true → childOf E a c = true) :
    WF (repairLoop E p additional s qids) ∧
    (repairLoop E p additional s qids).nextQid = s.nextQid ∧
    (repairLoop E p additional s qids).audit = s.audit ∧
    List.Forall₂ (fun a b => b.qid = a.qid ∧ b.product = a.product ∧ b.locId = a.locId ∧
      b.inventory_quantity = a.inventory_quantity ∧ a.quantity ≤ b.quantity ∧
      (b = a ∨ (a.product = p ∧ childOf E a.locId srcLoc = true)))
      s.quants (repairLoop E p additional s qids).quants ∧
    List.Forall₂ (fun a b => 0 ≤ available_quantity s.reservations a →
      0 ≤ available_quantity (repairLoop E p additional s qids).reservations b)
      s.quants (repairLoop E p additional s qids).quants ∧
    (∀ pp ll, (pp = p → childOf E ll srcLoc = false) →
      reserved_quantity (repairLoop E p additional s qids).reservations pp ll =
        reserved_quantity s.reservations pp ll) ∧
    (∀ a ∈ (repairLoop E p additional s qids).quants, a.qid ∈ qids →
      0 ≤ available_quantity (repairLoop E p additional s qids).reservations a) := by
  induction qids generalizing s with
  | nil =>
    rw [repairLoop]
    refine ⟨hWF, rfl, rfl, ?_, ?_, ?_, ?_⟩
    · exact List.forall₂_same.mpr fun a ha => ⟨rfl, rfl, rfl, rfl, le_refl _, Or.inl rfl⟩
    · exact List.forall₂_same.mpr fun a ha h => h
    · intro pp ll hcond; rfl
    · intro a ha hmem; simp at hmem
  | cons i rest ih =>
    rw [repairLoop]
    obtain ⟨sWF, sQ, sA, sRel, sMono, sEq, sPost⟩ :=
      repairQuant_spec E p srcLoc additional s i hWF (htrg i (by simp)) htrans
    set sm := repairQuant E p additional s i with hsm
    have htrg2 : ∀ j ∈ rest, ∀ a ∈ sm.quants, a.qid = j →
        a.product = p ∧ childOf E a.locId srcLoc = true := by
      intro j hj a ha haj
      obtain ⟨a0, ha0, e1, e2, e3, _⟩ := forall₂_mem_right sRel ha
      have h0 := htrg j (by simp [hj]) a0 ha0 (by rw [← e1, haj])
      exact ⟨e2 ▸ h0.1, e3 ▸ h0.2⟩
    obtain ⟨mWF, mQ, mA, mRel, mMono, mEq, mPost⟩ := ih sm sWF htrg2
    refine ⟨mWF, mQ.trans sQ, mA.trans sA, ?_, ?_, ?_, ?_⟩
    · refine (forall₂_compose sRel mRel).imp ?_
      rintro a c ⟨b, hab, hbc⟩
      obtain ⟨e1, e2, e3, e4, e5, e6⟩ := hab
      obtain ⟨f1, f2, f3, f4, f5, f6⟩ := hbc
      refine ⟨f1.trans e1, f2.trans e2, f3.trans e3, f4.trans e4, e5.trans f5, ?_⟩
      rcases f6 with f6 | f6
      · rcases e6 with e6 | e6
        · exact Or.inl (f6.trans e6)
        · exact Or.inr e6
      · exact Or.inr ⟨e2 ▸ f6.1, e3 ▸ f6.2⟩
    · refine (forall₂_compose sMono mMono).imp ?_
      rintro a c ⟨b, hab, hbc⟩
      exact fun h0 => hbc (hab h0)
    · intro pp ll hcond
      rw [mEq pp ll hcond, sEq pp ll hcond]
    · intro a ha hmem
      rcases List.mem_cons.mp hmem with h1 | h1
      · -- the head row: repaired by the first step, availability preserved after
        obtain ⟨b, hb, hrel, hmono⟩ := forall₂_mem_right (forall₂_and mRel mMono) ha
        exact hmono (sPost b hb (hrel.1.symm.trans h1))
      · exact mPost a ha h1

theorem subtractSource_nil (E : Env) (p root : Nat) (rem : ℚ) :
    subtractSource E p root [] rem = ([], rem) := by
  rw [subtractSource]

theorem subtractSource_cons (E : Env) (p root : Nat) (a : Quant) (as : List Quant) (rem : ℚ) :
    subtractSource E p root (a :: as) rem =
      if matchSub E p root a then
        if rem ≤ 0 then (a :: as, rem)
        else if 0 < a.quantity then
          ({ a with quantity := a.quantity - min a.quantity rem } ::
              (subtractSource E p root as (rem - min a.quantity rem)).1,
            (subtractSource E p root as (rem - min a.quantity rem)).2)
        else ((a :: (subtractSource E p root as rem).1), (subtractSource E p root as rem).2)
      else ((a :: (subtractSource E p root as rem).1), (subtractSource E p root as rem).2) := by
  rw [subtractSource]

/-- The source-side subtraction never drives a row's on-hand below zero:
every row is either untouched or, when it matched the source search and was
drawn from, ends with an on-hand between zero and its previous value; all
identity fields are preserved. -/
theorem subtractSource_forall₂ (E : Env) (p root : Nat) (qs : List Quant) (rem : ℚ) :
    List.Forall₂ (fun a b => b.qid = a.qid ∧ b.product = a.product ∧ b.locId = a.locId ∧
      b.inventory_quantity = a.inventory_quantity ∧
      (b = a ∨ (matchSub E p root a = true ∧ 0 ≤ b.quantity ∧ b.quantity ≤ a.quantity)))
      qs (subtractSource E p root qs rem).1 := by
  induction qs generalizing rem with
  | nil =>
    rw [subtractSource_nil]
    exact List.Forall₂.nil
  | cons a as ihs =>
    have hrefl : List.Forall₂ (fun a b => b.qid = a.qid ∧ b.product = a.product ∧
        b.locId = a.locId ∧ b.inventory_quantity = a.inventory_quantity ∧
        (b = a ∨ (matchSub E p root a = true ∧ 0 ≤ b.quantity ∧ b.quantity ≤ a.quantity)))
        as as :=
      List.forall₂_same.mpr fun x hx => ⟨rfl, rfl, rfl, rfl, Or.inl rfl⟩
    rw [subtractSource_cons]
    by_cases hm : matchSub E p root a
    · rw [if_pos hm]
      by_cases hrem : rem ≤ 0
      · rw [if_pos hrem]
        exact List.Forall₂.cons ⟨rfl, rfl, rfl, rfl, Or.inl rfl⟩ hrefl
      · rw [if_neg hrem]
        by_cases hq : 0 < a.quantity
        · rw [if_pos hq]
          refine List.Forall₂.cons ⟨rfl, rfl, rfl, rfl, Or.inr ⟨hm, ?_, ?_⟩⟩ (ihs _)
          · have h1 : min a.quantity rem ≤ a.quantity := min_le_left _ _
            simp only
            linarith
          · have h2 : 0 ≤ min a.quantity rem := le_min (le_of_lt hq) (by linarith)
            simp only
            linarith
        · rw [if_neg hq]
          exact List.Forall₂.cons ⟨rfl, rfl, rfl, rfl, Or.inl rfl⟩ (ihs _)
    · rw [if_neg hm]
      exact List.Forall₂.cons ⟨rfl, rfl, rfl, rfl, Or.inl rfl⟩ (ihs _)

theorem quantsIn_cons (E : Env) (p root : Nat) (a : Quant) (as : List Quant) :
    quantsIn E (a :: as) p root =
      if matchSub E p root a then a :: quantsIn E as p root else quantsIn E as p root := by
  unfold quantsIn
  rw [List.filter_cons]

theorem posSum_nonneg (E : Env) (p root : Nat) (qs : List Quant) :
    0 ≤ ((quantsIn E qs p root).map (fun q => max 0 q.quantity)).sum := by
  refine List.sum_nonneg ?_
  intro x hx
  obtain ⟨q, hq, hqe⟩ := List.mem_map.mp hx
  rw [← hqe]
  exact le_max_left _ _

/-- The remainder left by the subtraction loop: the requested amount minus
everything the positive rows of the source search could contribute, floored
at zero. -/
theorem subtractSource_rem (E : Env) (p root : Nat) (qs : List Quant) (rem : ℚ)
    (h : 0 ≤ rem) :
    (subtractSource E p root qs rem).2 =
      max 0 (rem - ((quantsIn E qs p root).map (fun q => max 0 q.quantity)).sum) := by
  induction qs generalizing rem with
  | nil =>
    rw [subtractSource_nil]
    simp [quantsIn]
    linarith
  | cons a as ihs =>
    rw [subtractSource_cons, quantsIn_cons]
    by_cases hm : matchSub E p root a
    · rw [if_pos hm, if_pos hm]
      by_cases hrem : rem ≤ 0
      · rw [if_pos hrem]
        have h0 : rem = 0 := le_antisymm hrem h
        subst h0
        have hS := posSum_nonneg E p root as
        have hmax : 0 ≤ max 0 a.quantity := le_max_left _ _
        simp only [List.map_cons, List.sum_cons]
        rw [max_eq_left (by linarith)]
      · rw [if_neg hrem]
        have hrpos : 0 < rem := lt_of_not_ge hrem
        by_cases hq : 0 < a.quantity
        · rw [if_pos hq]
          have hamt : 0 ≤ min a.quantity rem := le_min (le_of_lt hq) (le_of_lt hrpos)
          have hrec := ihs (rem - min a.quantity rem)
            (by have := min_le_right a.quantity rem; linarith)
          simp only at hrec ⊢
          rw [hrec]
          simp only [List.map_cons, List.sum_cons]
          rw [max_eq_right (le_of_lt hq)]
          rcases le_total a.quantity rem with hle | hle
          · rw [min_eq_left hle]
            ring_nf
          · rw [min_eq_right hle]
            have hS := posSum_nonneg E p root as
            rw [max_eq_left (by linarith), max_eq_left (by linarith)]
        · rw [if_neg hq]
          have hrec := ihs rem h
          simp only at hrec ⊢
          rw [hrec]
          simp only [List.map_cons, List.sum_cons]
          rw [max_eq_left (le_of_not_lt hq)]
          ring_nf
    · rw [if_neg hm, if_neg hm]
      exact ihs rem h

/-- Total on-hand removed by the subtraction loop equals the requested
amount minus the final remainder. -/
theorem subtractSource_sum (E : Env) (p root : Nat) (qs : List Quant) (rem : ℚ) :
    (((subtractSource E p root qs rem).1).map (·.quantity)).sum =
      (qs.map (·.quantity)).sum - (rem - (subtractSource E p root qs rem).2) := by
  induction qs generalizing rem with
  | nil =>
    rw [subtractSource_nil]
    simp
  | cons a as ihs =>
    rw [subtractSource_cons]
    by_cases hm : matchSub E p root a
    · rw [if_pos hm]
      by_cases hrem : rem ≤ 0
      · rw [if_pos hrem]
        simp
      · rw [if_neg hrem]
        by_cases hq : 0 < a.quantity
        · rw [if_pos hq]
          have hrec := ihs (rem - min a.quantity rem)
          simp only [List.map_cons, List.sum_cons] at hrec ⊢
          rw [hrec]
          ring
        · rw [if_neg hq]
          have hrec := ihs rem
          simp only [List.map_cons, List.sum_cons] at hrec ⊢
          rw [hrec]
          ring
    · rw [if_neg hm]
      have hrec := ihs rem
      simp only [List.map_cons, List.sum_cons] at hrec ⊢
      rw [hrec]
      ring

theorem map_qid_of_forall₂ {l1 l2 : List Quant}
    (h : List.Forall₂ (fun a b => b.qid = a.qid) l1 l2) :
    l2.map (·.qid) = l1.map (·.qid) := by
  induction h with
  | nil => rfl
  | @cons a b la lb hab hrest ih => simp [hab, ih]

theorem pairUnique_of_forall₂ {l1 l2 : List Quant}
    (h : List.Forall₂ (fun a b => b.product = a.product ∧ b.locId = a.locId) l1 l2)
    (hPU : pairUnique l1) : pairUnique l2 := by
  induction h with
  | nil => exact List.Pairwise.nil
  | @cons x y lx ly hxy hrest ih =>
    cases hPU with
    | cons hx hlx =>
      refine List.Pairwise.cons ?_ (ih hlx)
      intro b hb
      obtain ⟨a, ha, e1, e2⟩ := forall₂_mem_right hrest hb
      rcases hx a ha with hne | hne
      · exact Or.inl (by rw [e1, hxy.1]; exact hne)
      · exact Or.inr (by rw [e2, hxy.2]; exact hne)

theorem reserved_eq_zero_of_no_row {s : State} {pp ll : Nat} (hCov : resCovered s)
    (hno : ∀ qq ∈ s.quants, ¬(qq.product = pp ∧ qq.locId = ll)) :
    reserved_quantity s.reservations pp ll = 0 := by
  unfold reserved_quantity
  have hnil : s.reservations.filter (fun r => r.product == pp && r.locId == ll) = [] := by
    rw [List.filter_eq_nil_iff]
    intro r hr hmatch
    simp only [Bool.and_eq_true, beq_iff_eq] at hmatch
    obtain ⟨qq, hqq, e1, e2⟩ := hCov r hr
    exact hno qq hqq ⟨e1.trans hmatch.1, e2.trans hmatch.2⟩
  rw [hnil]
  rfl

theorem availSum_nonneg {E : Env} {s : State} (hInv : availInv s) (p root : Nat) :
    0 ≤ availSum E s.reservations s.quants p root := by
  refine List.sum_nonneg ?_
  intro x hx
  obtain ⟨q, hq, hqe⟩ := List.mem_map.mp hx
  rw [← hqe]
  exact hInv q (List.mem_filter.mp hq).1

/-- The source phase of a transfer preserves well-formedness and the
non-negative-availability invariant, keeps row identities (only lowering
or repairing on-hand of rows inside the source search), and leaves
reserved quantities outside the source subtree untouched. -/
theorem sourcePhase_spec (E : Env) (p srcLoc : Nat) (Q additional : ℚ) (s : State)
    (hWF : WF s) (hInv : availInv s)
    (htrans : ∀ a b c, childOf E a b = true → childOf E b c = true → childOf E a c = true) :
    WF (sourcePhase E p srcLoc Q additional s) ∧
    availInv (sourcePhase E p srcLoc Q additional s) ∧
    (sourcePhase E p srcLoc Q additional s).nextQid = s.nextQid ∧
    List.Forall₂ (fun a b => b.qid = a.qid ∧ b.product = a.product ∧ b.locId = a.locId ∧
      b.inventory_quantity = a.inventory_quantity ∧
      (b = a ∨ (a.product = p ∧ childOf E a.locId srcLoc = true)))
      s.quants (sourcePhase E p srcLoc Q additional s).quants ∧
    (∀ pp ll, (pp = p → childOf E ll srcLoc = false) →
      reserved_quantity (sourcePhase E p srcLoc Q additional s).reservations pp ll =
        reserved_quantity s.reservations pp ll) := by
  obtain ⟨hPU, hQN, hQF, hRN, hRF, hNN, hCov⟩ := hWF
  unfold sourcePhase
  dsimp only
  have hsubF := subtractSource_forall₂ E p srcLoc s.quants Q
  obtain ⟨subq, hsubq⟩ : ∃ l, (subtractSource E p srcLoc s.quants Q).1 = l := ⟨_, rfl⟩
  rw [hsubq] at hsubF ⊢
  set s1 : State := { s with quants := subq } with hs1
  have hsubF1 : List.Forall₂ (fun a b => b.qid = a.qid ∧ b.product = a.product ∧
      b.locId = a.locId ∧ b.inventory_quantity = a.inventory_quantity ∧
      (b = a ∨ (matchSub E p srcLoc a = true ∧ 0 ≤ b.quantity ∧ b.quantity ≤ a.quantity)))
      s.quants s1.quants := hsubF
  have hmapq1 : s1.quants.map (·.qid) = s.quants.map (·.qid) :=
    map_qid_of_forall₂ (hsubF1.imp fun a b hab => hab.1)
  have hQN1 : qidsNodup s1.quants := by unfold qidsNodup; rw [hmapq1]; exact hQN
  have hPU1 : pairUnique s1.quants :=
    pairUnique_of_forall₂ (hsubF1.imp fun a b hab => ⟨hab.2.1, hab.2.2.1⟩) hPU
  have hWF1 : WF s1 := by
    refine ⟨hPU1, hQN1, qidFresh_of_map hmapq1 rfl hQF, hRN, hRF, hNN, ?_⟩
    intro r hr
    obtain ⟨qq, hqq, e1, e2⟩ := hCov r hr
    obtain ⟨b, hb, hrel⟩ := forall₂_mem_left hsubF1 hqq
    exact ⟨b, hb, hrel.2.1.trans e1, hrel.2.2.1.trans e2⟩
  set qids := (quantsIn E subq p srcLoc).map (·.qid) with hqids
  have hqids1 : qids = (quantsIn E s1.quants p srcLoc).map (·.qid) := hqids
  have htrg : ∀ i ∈ qids, ∀ a ∈ s1.quants, a.qid = i →
      a.product = p ∧ childOf E a.locId srcLoc = true := by
    intro i hi a ha hai
    rw [hqids1] at hi
    obtain ⟨c, hc, hce⟩ := List.mem_map.mp hi
    have hcmem := List.mem_filter.mp hc
    have hac : a = c := qid_unique hQN1 ha hcmem.1 (by rw [hai, hce])
    subst hac
    have := hcmem.2
    unfold matchSub at this
    simp only [Bool.and_eq_true, beq_iff_eq] at this
    exact this
  obtain ⟨lWF, lQ, lA, lRel, lMono, lEq, lPost⟩ :=
    repairLoop_spec E p srcLoc additional qids s1 hWF1 htrg htrans
  refine ⟨lWF, ?_, lQ, ?_, ?_⟩
  · -- availability of every row after the source phase is non-negative
    intro b hb
    obtain ⟨a1, ha1, hrel, hmono⟩ := forall₂_mem_right (forall₂_and lRel lMono) hb
    by_cases hm : matchSub E p srcLoc a1
    · refine lPost b hb ?_
      rw [hqids1, hrel.1]
      exact List.mem_map.mpr ⟨a1, List.mem_filter.mpr ⟨ha1, hm⟩, rfl⟩
    · refine hmono ?_
      obtain ⟨a0, ha0, hrel0⟩ := forall₂_mem_right hsubF1 ha1
      have hm0 : ¬matchSub E p srcLoc a0 = true := by
        intro hc
        unfold matchSub at hc hm
        simp only [Bool.and_eq_true, beq_iff_eq] at hc hm
        exact hm ⟨hrel0.2.1.trans hc.1, hrel0.2.2.1 ▸ hc.2⟩
      have ha10 : a1 = a0 := by
        rcases hrel0.2.2.2.2 with h | h
        · exact h
        · exact absurd h.1 hm0
      have hres1 : s1.reservations = s.reservations := rfl
      rw [ha10, hres1]
      exact hInv a0 ha0
  · -- row identity across subtraction and repair
    refine (forall₂_compose hsubF1 lRel).imp ?_
    rintro a c ⟨b, hab, hbc⟩
    obtain ⟨e1, e2, e3, e4, e5⟩ := hab
    obtain ⟨f1, f2, f3, f4, f5, f6⟩ := hbc
    refine ⟨f1.trans e1, f2.trans e2, f3.trans e3, f4.trans e4, ?_⟩
    rcases f6 with f6 | f6
    · rcases e5 with e5 | e5
      · exact Or.inl (f6.trans e5)
      · refine Or.inr ?_
        unfold matchSub at e5
        simp only [Bool.and_eq_true, beq_iff_eq] at e5
        exact e5.1
    · exact Or.inr ⟨e2 ▸ f6.1, e3 ▸ f6.2⟩
  · intro pp ll hcond
    have hres1 : s1.reservations = s.reservations := rfl
    rw [lEq pp ll hcond, hres1]

/-- The destination phase of a transfer preserves the
non-negative-availability invariant as long as the over-commitment
reservation does not exceed the transferred quantity. -/
theorem destinationPhase_availInv (p dstLoc : Nat) (Q additional : ℚ) (s2 : State)
    (hWF : WF s2) (hInv : availInv s2) (hQpos : 0 < Q)
    (hadd0 : 0 ≤ additional) (haddle : additional ≤ Q) :
    availInv (destinationPhase p dstLoc Q additional s2) := by
  obtain ⟨lPU2, lQN2, lQF2, lRN2, lRF2, lNN2, lCov2⟩ := hWF
  unfold destinationPhase
  dsimp only
  have hsymm : Symmetric fun x y : Quant => x.product ≠ y.product ∨ x.locId ≠ y.locId := by
    intro x y h
    rcases h with h | h
    · exact Or.inl (Ne.symm h)
    · exact Or.inr (Ne.symm h)
  cases hfind3 : s2.quants.find? (fun q => q.product == p && q.locId == dstLoc) with
  | some dq =>
    dsimp only
    have hdqmem : dq ∈ s2.quants := List.mem_of_find?_eq_some hfind3
    have hdqpair : dq.product = p ∧ dq.locId = dstLoc := by
      have := List.find?_some hfind3
      simpa using this
    have hrowcase : ∀ b ∈ setQuantQty s2.quants dq.qid (dq.quantity + Q),
        b = { dq with quantity := dq.quantity + Q } ∨
          (b ∈ s2.quants ∧ ¬(b.product = p ∧ b.locId = dstLoc)) := by
      intro b hb
      obtain ⟨a, ha, hfa⟩ := List.mem_map.mp hb
      by_cases hai : (a.qid == dq.qid) = true
      · have haq : a = dq := qid_unique lQN2 ha hdqmem (by simpa using hai)
        subst haq
        rw [if_pos hai] at hfa
        exact Or.inl hfa.symm
      · rw [if_neg hai] at hfa
        rw [← hfa]
        refine Or.inr ⟨ha, ?_⟩
        rintro ⟨e1, e2⟩
        have hane : a ≠ dq := fun hc => hai (by rw [hc]; exact beq_self_eq_true _)
        rcases lPU2.forall hsymm ha hdqmem hane with h | h
        · exact h (by rw [e1, hdqpair.1])
        · exact h (by rw [e2, hdqpair.2])
    by_cases hADD : 0 < additional
    · rw [if_pos hADD]
      intro b hb
      have hb2 : b ∈ setQuantQty s2.quants dq.qid (dq.quantity + Q) := hb
      have hres :
          (addReservation { s2 with
            quants := setQuantQty s2.quants dq.qid (dq.quantity + Q) }
            p dstLoc additional).reservations =
          s2.reservations ++ [⟨s2.nextRid, p, dstLoc, additional⟩] := rfl
      rw [hres]
      unfold available_quantity
      rw [reserved_quantity_append, reserved_quantity_cons, reserved_quantity_nil]
      rcases hrowcase b hb2 with hcase | ⟨hbmem, hbne⟩
      · subst hcase
        dsimp only
        have hcond : ((p : Nat) == dq.product && (dstLoc : Nat) == dq.locId) = true := by
          simp [hdqpair.1, hdqpair.2]
        rw [hcond]
        rw [if_pos rfl]
        have h2 := hInv dq hdqmem
        unfold available_quantity at h2
        linarith
      · have hcond : ¬((⟨s2.nextRid, p, dstLoc, additional⟩ : Reservation).product == b.product &&
            (⟨s2.nextRid, p, dstLoc, additional⟩ : Reservation).locId == b.locId) = true := by
          simp only [Bool.and_eq_true, beq_iff_eq]
          rintro ⟨e1, e2⟩
          exact hbne ⟨e1.symm, e2.symm⟩
        rw [if_neg hcond]
        have h2 := hInv b hbmem
        unfold available_quantity at h2
        linarith
    · rw [if_neg hADD]
      intro b hb
      have hb2 : b ∈ setQuantQty s2.quants dq.qid (dq.quantity + Q) := hb
      have hres :
          ({ s2 with
            quants := setQuantQty s2.quants dq.qid (dq.quantity + Q) } : State).reservations =
          s2.reservations := rfl
      rw [hres]
      rcases hrowcase b hb2 with hcase | ⟨hbmem, hbne⟩
      · subst hcase
        have h2 := hInv dq hdqmem
        unfold available_quantity at h2 ⊢
        dsimp only
        linarith
      · exact hInv b hbmem
  | none =>
    dsimp only
    have hnorow : ∀ qq ∈ s2.quants, ¬(qq.product = p ∧ qq.locId = dstLoc) := by
      intro qq hqq hpair
      have := List.find?_eq_none.mp hfind3 qq hqq
      simp only [Bool.and_eq_true, beq_iff_eq] at this
      exact this ⟨hpair.1, hpair.2⟩
    have hzero : reserved_quantity s2.reservations p dstLoc = 0 :=
      reserved_eq_zero_of_no_row lCov2 hnorow
    have hrowcase : ∀ b ∈ s2.quants ++ [(⟨s2.nextQid, p, dstLoc, Q, none⟩ : Quant)],
        (b ∈ s2.quants ∧ ¬(b.product = p ∧ b.locId = dstLoc)) ∨
          b = (⟨s2.nextQid, p, dstLoc, Q, none⟩ : Quant) := by
      intro b hb
      rcases List.mem_append.mp hb with hb1 | hb1
      · exact Or.inl ⟨hb1, hnorow b hb1⟩
      · exact Or.inr (by simpa using hb1)
    by_cases hADD : 0 < additional
    · rw [if_pos hADD]
      intro b hb
      have hb2 : b ∈ s2.quants ++ [(⟨s2.nextQid, p, dstLoc, Q, none⟩ : Quant)] := hb
      have hres :
          (addReservation { s2 with
            quants := s2.quants ++ [(⟨s2.nextQid, p, dstLoc, Q, none⟩ : Quant)]
            nextQid := s2.nextQid + 1 }
            p dstLoc additional).reservations =
          s2.reservations ++ [⟨s2.nextRid, p, dstLoc, additional⟩] := rfl
      rw [hres]
      unfold available_quantity
      rw [reserved_quantity_append, reserved_quantity_cons, reserved_quantity_nil]
      rcases hrowcase b hb2 with ⟨hbmem, hbne⟩ | hcase
      · have hcond : ¬((⟨s2.nextRid, p, dstLoc, additional⟩ : Reservation).product == b.product &&
            (⟨s2.nextRid, p, dstLoc, additional⟩ : Reservation).locId == b.locId) = true := by
          simp only [Bool.and_eq_true, beq_iff_eq]
          rintro ⟨e1, e2⟩
          exact hbne ⟨e1.symm, e2.symm⟩
        rw [if_neg hcond]
        have h2 := hInv b hbmem
        unfold available_quantity at h2
        linarith
      · subst hcase
        dsimp only
        rw [hzero]
        have hcond : ((p : Nat) == p && (dstLoc : Nat) == dstLoc) = true := by simp
        rw [hcond, if_pos rfl]
        linarith
    · rw [if_neg hADD]
      intro b hb
      have hb2 : b ∈ s2.quants ++ [(⟨s2.nextQid, p, dstLoc, Q, none⟩ : Quant)] := hb
      have hres :
          ({ s2 with
            quants := s2.quants ++ [(⟨s2.nextQid, p, dstLoc, Q, none⟩ : Quant)]
            nextQid := s2.nextQid + 1 } : State).reservations =
          s2.reservations := rfl
      rw [hres]
      rcases hrowcase b hb2 with ⟨hbmem, hbne⟩ | hcase
      · exact hInv b hbmem
      · subst hcase
        unfold available_quantity
        dsimp only
        rw [hzero]
        linarith

/-- The mutation phase of a transfer leaves every ledger row with
non-negative availability, provided the store was well-formed, every row's
availability was non-negative, and the location hierarchy is transitive. -/
theorem performTransfer_availInv (E : Env) (v : ValidTransfer) (s : State)
    (hWF : WF s) (hInv : availInv s) (hQpos : 0 < v.quantity)
    (htrans : ∀ a b c, childOf E a b = true → childOf E b c = true → childOf E a c = true) :
    availInv (performTransfer E v s).2 := by
  have hbridge : availInv (performTransfer E v s).2 ↔
      availInv (destinationPhase v.product.id v.dstW.lot_stock_id v.quantity
        (max 0 (v.quantity -
          availSum E s.reservations s.quants v.product.id v.srcW.lot_stock_id))
        (sourcePhase E v.product.id v.srcW.lot_stock_id v.quantity
          (max 0 (v.quantity -
            availSum E s.reservations s.quants v.product.id v.srcW.lot_stock_id)) s)) :=
    Iff.rfl
  rw [hbridge]
  obtain ⟨sWF, sInv, _, _, _⟩ :=
    sourcePhase_spec E v.product.id v.srcW.lot_stock_id v.quantity
      (max 0 (v.quantity -
        availSum E s.reservations s.quants v.product.id v.srcW.lot_stock_id)) s hWF hInv htrans
  have havailB0 : 0 ≤ availSum E s.reservations s.quants v.product.id v.srcW.lot_stock_id :=
    availSum_nonneg hInv _ _
  refine destinationPhase_availInv _ _ _ _ _ sWF sInv hQpos (le_max_left _ _) ?_
  rcases max_cases (0:ℚ)
    (v.quantity - availSum E s.reservations s.quants v.product.id v.srcW.lot_stock_id) with
    ⟨he, _⟩ | ⟨he, _⟩ <;> rw [he] <;> linarith

/-- The mutation phase of an adjustment never changes any row's on-hand or
reserved quantities, so non-negative availability is preserved; a freshly
created row has zero on-hand and, by reservation coverage, zero reserved. -/
theorem performAdjust_availInv (E : Env) (v : ValidAdjust) (s : State)
    (hCov : resCovered s) (hInv : availInv s) :
    availInv (performAdjust E v s).2 := by
  unfold performAdjust
  dsimp only
  split
  · exact hInv
  · next target heq =>
    cases hfindq : s.quants.find?
        (fun q => q.product == v.product.id && q.locId == v.w.lot_stock_id) with
    | some q =>
      dsimp only
      intro b hb
      have hb2 : b ∈ setQuantInv s.quants q.qid target := hb
      obtain ⟨a, ha, hfa⟩ := List.mem_map.mp hb2
      have hres : ∀ x, available_quantity s.reservations x =
          x.quantity - reserved_quantity s.reservations x.product x.locId := fun x => rfl
      show 0 ≤ available_quantity s.reservations b
      by_cases hai : (a.qid == q.qid) = true
      · rw [if_pos hai] at hfa
        rw [← hfa]
        have h0 := hInv a ha
        unfold available_quantity at h0 ⊢
        dsimp only
        linarith
      · rw [if_neg hai] at hfa
        rw [← hfa]
        exact hInv a ha
    | none =>
      dsimp only
      have hnorow : ∀ qq ∈ s.quants, ¬(qq.product = v.product.id ∧ qq.locId = v.w.lot_stock_id) := by
        intro qq hqq hpair
        have := List.find?_eq_none.mp hfindq qq hqq
        simp only [Bool.and_eq_true, beq_iff_eq] at this
        exact this ⟨hpair.1, hpair.2⟩
      have hzero : reserved_quantity s.reservations v.product.id v.w.lot_stock_id = 0 :=
        reserved_eq_zero_of_no_row hCov hnorow
      intro b hb
      have hb2 : b ∈ s.quants ++
          [(⟨s.nextQid, v.product.id, v.w.lot_stock_id, 0, some target⟩ : Quant)] := hb
      show 0 ≤ available_quantity s.reservations b
      rcases List.mem_append.mp hb2 with hb1 | hb1
      · exact hInv b hb1
      · have hbe : b = (⟨s.nextQid, v.product.id, v.w.lot_stock_id, 0, some target⟩ : Quant) := by
          simpa using hb1
        subst hbe
        unfold available_quantity
        dsimp only
        rw [hzero]
        linarith

/-- Inversion of a successful transfer validation: the request fields, the
catalog lookups, the positivity of the quantity, and the stock checks. -/
theorem validateTransfer_ok {E : Env} {req : TransferRequest} {s : State} {v : ValidTransfer}
    (h : validateTransfer E req s = .ok v) :
    req.barcode = some v.barcode ∧
    findProduct E v.barcode = some v.product ∧
    req.quantity = some v.quantity ∧
    0 < v.quantity ∧
    v.srcW.id ≠ v.dstW.id ∧
    ¬(onHandSum E s.quants v.product.id v.srcW.lot_stock_id < v.quantity) ∧
    ¬(onHandSum E s.quants v.product.id v.srcW.lot_stock_id ≤ 0) := by
  unfold validateTransfer at h
  repeat' split at h
  all_goals try cases h
  rename_i o1 b1 heqb hbne o2 sid heqs hsid o3 did heqd hdid o4 qv heqq hqv o5 vp heqp
    o6 sw heqsw o7 dw heqdw hwne
  dsimp only at h
  by_cases h1 : onHandSum E s.quants vp.id sw.lot_stock_id < qv
  · rw [if_pos h1] at h
    cases h
  · rw [if_neg h1] at h
    by_cases h2 : onHandSum E s.quants vp.id sw.lot_stock_id ≤ 0
    · rw [if_pos h2] at h
      cases h
    · rw [if_neg h2] at h
      injection h with h
      subst h
      exact ⟨heqb, heqp, heqq, lt_of_not_ge hqv, hwne, h1, h2⟩
/-! ### Availability sums under record writes -/

theorem setQuantQty_cons (a : Quant) (as : List Quant) (i : Nat) (v : ℚ) :
    setQuantQty (a :: as) i v =
      (if a.qid == i then { a with quantity := v } else a) :: setQuantQty as i v := by
  unfold setQuantQty
  rw [List.map_cons]

theorem setQuantQty_id (i : Nat) (v : ℚ) :
    ∀ qs : List Quant, (∀ q ∈ qs, q.qid ≠ i) → setQuantQty qs i v = qs
  | [], _ => rfl
  | a :: as, h => by
    rw [setQuantQty_cons]
    have ha : ¬((a.qid == i) = true) := by
      simpa using h a (List.mem_cons_self a as)
    rw [if_neg ha, setQuantQty_id i v as (fun q hq => h q (List.mem_cons_of_mem a hq))]

theorem availSum_cons (E : Env) (res : List Reservation) (a : Quant) (as : List Quant)
    (p root : Nat) :
    availSum E res (a :: as) p root =
      (if matchSub E p root a then available_quantity res a else 0) +
        availSum E res as p root := by
  unfold availSum quantsIn
  rw [List.filter_cons]
  by_cases hm : matchSub E p root a
  · rw [if_pos hm, if_pos hm, List.map_cons, List.sum_cons]
  · rw [if_neg hm, if_neg hm]
    simp

theorem availSum_append (E : Env) (res : List Reservation) (l1 l2 : List Quant)
    (p root : Nat) :
    availSum E res (l1 ++ l2) p root =
      availSum E res l1 p root + availSum E res l2 p root := by
  unfold availSum quantsIn
  rw [List.filter_append, List.map_append, List.sum_append]

/-- Availability sums agree across two row lists that match the filter
identically and have equal availability on every filtered row. -/
theorem availSum_congr {E : Env} {p root : Nat} {res1 res2 : List Reservation}
    {l1 l2 : List Quant}
    (h : List.Forall₂ (fun a b => matchSub E p root b = matchSub E p root a ∧
      (matchSub E p root a = true →
        available_quantity res2 b = available_quantity res1 a)) l1 l2) :
    availSum E res2 l2 p root = availSum E res1 l1 p root := by
  induction h with
  | nil => rfl
  | @cons a b la lb hab hrest ih =>
    rw [availSum_cons, availSum_cons, ih, hab.1]
    by_cases hm : matchSub E p root a
    · rw [if_pos hm, if_pos hm, hab.2 hm]
    · rw [if_neg hm, if_neg hm]

/-- Writing `v` into the on-hand of a filtered row shifts the availability
sum by exactly `v` minus the row's previous on-hand. -/
theorem availSum_setQuantQty (E : Env) (p root : Nat) (res : List Reservation) (v : ℚ) :
    ∀ qs : List Quant, qidsNodup qs → ∀ dq, dq ∈ qs → matchSub E p root dq = true →
      availSum E res (setQuantQty qs dq.qid v) p root =
        availSum E res qs p root + (v - dq.quantity)
  | [], _, dq, hmem, _ => absurd hmem (List.not_mem_nil dq)
  | a :: as, hnd, dq, hmem, hm => by
    have hndtail : qidsNodup as := by
      unfold qidsNodup at hnd ⊢
      rw [List.map_cons] at hnd
      exact hnd.of_cons
    have hanotin : a.qid ∉ as.map (fun q => q.qid) := by
      unfold qidsNodup at hnd
      rw [List.map_cons] at hnd
      exact (List.nodup_cons.mp hnd).1
    rw [setQuantQty_cons]
    rcases List.mem_cons.mp hmem with heq | hmem2
    · subst heq
      rw [if_pos (beq_self_eq_true dq.qid)]
      have htail : setQuantQty as dq.qid v = as := by
        refine setQuantQty_id dq.qid v as ?_
        intro q hq hc
        exact hanotin (hc ▸ List.mem_map.mpr ⟨q, hq, rfl⟩)
      rw [htail, availSum_cons, availSum_cons]
      have hmm : matchSub E p root { dq with quantity := v } = matchSub E p root dq := rfl
      rw [hmm, if_pos hm, if_pos hm]
      have hav : available_quantity res { dq with quantity := v } =
          v - reserved_quantity res dq.product dq.locId := rfl
      have hav2 : available_quantity res dq =
          dq.quantity - reserved_quantity res dq.product dq.locId := rfl
      rw [hav, hav2]
      ring
    · have hne : ¬((a.qid == dq.qid) = true) := by
        intro hc
        have : a.qid = dq.qid := by simpa using hc
        exact hanotin (this ▸ List.mem_map.mpr ⟨dq, hmem2, rfl⟩)
      rw [if_neg hne, availSum_cons, availSum_cons,
        availSum_setQuantQty E p root res v as hndtail dq hmem2 hm]
      ring

/-- Writing the staged counted quantity leaves every other row field
untouched. -/
theorem setQuantInv_map_eraseCounted (i : Nat) (v : ℚ) :
    ∀ qs : List Quant, (setQuantInv qs i v).map eraseCounted = qs.map eraseCounted
  | [] => rfl
  | a :: as => by
    unfold setQuantInv
    rw [List.map_cons, List.map_cons, List.map_cons]
    have ih := setQuantInv_map_eraseCounted i v as
    unfold setQuantInv at ih
    rw [ih]
    by_cases ha : (a.qid == i) = true
    · rw [if_pos ha]
      rfl
    · rw [if_neg ha]


/-- In the flat sample hierarchy no location lies under both warehouse
stock locations. -/
theorem sampleEnv_disj :
    ∀ l, ¬(childOf sampleEnv l 1 = true ∧ childOf sampleEnv l 2 = true) := by
  intro l hl
  obtain ⟨h1, h2⟩ := hl
  simp [childOf, sampleEnv] at h1 h2
  omega

/-- With no over-commitment reservation, the destination phase raises the
destination availability sum by exactly the transferred quantity. -/
theorem destinationPhase_availSum_zero (E : Env) (p dstLoc : Nat) (Q : ℚ) (s2 : State)
    (hnd : qidsNodup s2.quants) (hCov : resCovered s2)
    (hrefl : childOf E dstLoc dstLoc = true) :
    availSum E (destinationPhase p dstLoc Q 0 s2).reservations
        (destinationPhase p dstLoc Q 0 s2).quants p dstLoc =
      availSum E s2.reservations s2.quants p dstLoc + Q := by
  unfold destinationPhase
  dsimp only
  rw [if_neg (lt_irrefl (0 : ℚ))]
  cases hfind : s2.quants.find? (fun q => q.product == p && q.locId == dstLoc) with
  | some dq =>
    dsimp only
    have hdqmem : dq ∈ s2.quants := List.mem_of_find?_eq_some hfind
    have hdqpair : dq.product = p ∧ dq.locId = dstLoc := by
      have := List.find?_some hfind
      simpa using this
    have hm : matchSub E p dstLoc dq = true := by
      unfold matchSub
      rw [hdqpair.1, hdqpair.2]
      simp [hrefl]
    rw [availSum_setQuantQty E p dstLoc s2.reservations (dq.quantity + Q) s2.quants hnd dq
      hdqmem hm]
    ring
  | none =>
    dsimp only
    rw [availSum_append, availSum_cons]
    have hm : matchSub E p dstLoc (⟨s2.nextQid, p, dstLoc, Q, none⟩ : Quant) = true := by
      unfold matchSub
      simp [hrefl]
    rw [if_pos hm]
    have hnorow : ∀ qq ∈ s2.quants, ¬(qq.product = p ∧ qq.locId = dstLoc) := by
      intro qq hqq hc
      have := List.find?_eq_none.mp hfind qq hqq
      simp [hc.1, hc.2] at this
    have hz := reserved_eq_zero_of_no_row hCov hnorow
    have hav : available_quantity s2.reservations (⟨s2.nextQid, p, dstLoc, Q, none⟩ : Quant) =
        Q - reserved_quantity s2.reservations p dstLoc := rfl
    rw [hav, hz]
    have hnil : availSum E s2.reservations [] p dstLoc = 0 := rfl
    rw [hnil]
    ring

/-- The source phase of a transfer does not change the availability sum at
any destination whose subtree is disjoint from the source subtree. -/
theorem sourcePhase_dst_availSum (E : Env) (p srcLoc dstLoc : Nat) (Q additional : ℚ)
    (s : State) (hWF : WF s) (hInv : availInv s)
    (htrans : ∀ a b c, childOf E a b = true → childOf E b c = true → childOf E a c = true)
    (hdisj : ∀ l, ¬(childOf E l srcLoc = true ∧ childOf E l dstLoc = true)) :
    availSum E (sourcePhase E p srcLoc Q additional s).reservations
        (sourcePhase E p srcLoc Q additional s).quants p dstLoc =
      availSum E s.reservations s.quants p dstLoc := by
  obtain ⟨_, _, _, hRel, hResEq⟩ := sourcePhase_spec E p srcLoc Q additional s hWF hInv htrans
  apply availSum_congr
  refine hRel.imp ?_
  intro a b hab
  obtain ⟨h1, h2, h3, h4, h5⟩ := hab
  have hmeq : matchSub E p dstLoc b = matchSub E p dstLoc a := by
    unfold matchSub
    rw [h2, h3]
  refine ⟨hmeq, ?_⟩
  intro hma
  have hma2 := hma
  unfold matchSub at hma2
  simp only [Bool.and_eq_true, beq_iff_eq] at hma2
  have hnsrc : childOf E a.locId srcLoc = false := by
    cases hcc : childOf E a.locId srcLoc
    · rfl
    · exact absurd ⟨hcc, hma2.2⟩ (hdisj a.locId)
  have hba : b = a := by
    rcases h5 with h | h
    · exact h
    · rw [h.2] at hnsrc
      simp at hnsrc
  subst hba
  unfold available_quantity
  rw [hResEq b.product b.locId (fun _ => hnsrc)]

/-! ### Claim theorems -/

/-- In the flat sample hierarchy `child_of` is transitive. -/
theorem sampleEnv_trans : ∀ a b c, childOf sampleEnv a b = true →
    childOf sampleEnv b c = true → childOf sampleEnv a c = true := by
  intro a b c h1 h2
  simp [childOf, sampleEnv] at h1 h2 ⊢
  omega

/-- C1: after any transfer or adjustment on a well-formed store whose rows
all have non-negative availability (and a transitive location hierarchy),
every persisted ledger row still has non-negative available quantity: the
source-side repair chain (reduce reservations, cancel reservations, floor
fallback) guarantees no row is left with `available_quantity < 0`. -/
theorem available_quantity_never_negative
    (E : Env) (rt : TransferRequest) (ra : AdjustRequest) (s : State)
    (hWF : WF s) (hInv : availInv s)
    (htrans : ∀ a b c, childOf E a b = true → childOf E b c = true →
      childOf E a c = true) :
    availInv (transfer_inventory E rt s).2 ∧ availInv (adjust_inventory E ra s).2 := by
  constructor
  · unfold transfer_inventory
    cases hv : validateTransfer E rt s with
    | error e => exact hInv
    | ok v =>
      dsimp only
      exact performTransfer_availInv E v s hWF hInv (validateTransfer_ok hv).2.2.2.1 htrans
  · unfold adjust_inventory
    cases hv : validateAdjust E ra with
    | error e => exact hInv
    | ok v => exact performAdjust_availInv E v s hWF.2.2.2.2.2.2 hInv

/-- Witness for C1 at a concrete transfer and adjustment. -/
theorem available_quantity_never_negative_witness :
    availInv (transfer_inventory sampleEnv ⟨some "B", some 1, some 2, some 4⟩ sampleState).2 ∧
    availInv (adjust_inventory sampleEnv ⟨some "B", some 1, some "add", some 5⟩ sampleState).2 :=
  available_quantity_never_negative sampleEnv ⟨some "B", some 1, some 2, some 4⟩
    ⟨some "B", some 1, some "add", some 5⟩ sampleState
    (by
      unfold WF pairUnique qidsNodup qidFresh ridsNodup ridFresh resNonneg resCovered sampleState
      decide)
    (by
      unfold availInv available_quantity reserved_quantity sampleState
      with_unfolding_all decide)
    sampleEnv_trans

/-- C4: when any transfer precondition fails, the endpoint returns that
error and the store (ledger rows, reservations, audit log) is completely
unchanged: all checks run before the first mutation. -/
theorem transfer_error_leaves_state_unchanged (E : Env) (req : TransferRequest) (s : State)
    (e : TransferError) (h : validateTransfer E req s = .error e) :
    transfer_inventory E req s = (.error e, s) := by
  unfold transfer_inventory
  rw [h]

/-- Witness for C4: a request with a missing barcode. -/
theorem transfer_error_leaves_state_unchanged_witness :
    transfer_inventory sampleEnv ⟨none, some 1, some 2, some 4⟩ sampleState =
      (.error .missingBarcode, sampleState) :=
  transfer_error_leaves_state_unchanged sampleEnv ⟨none, some 1, some 2, some 4⟩
    sampleState .missingBarcode rfl

/-- C3 counterexample: at a source with summed on-hand 0 (hence ≤ 0) and
requested quantity 1 the transfer fails with `insufficientStock`, not with
`noStock` as the claim states: the `on-hand < quantity` check fires first
whenever the quantity is positive. -/
theorem noStock_never_returned_counterexample :
    onHandSum sampleEnv emptyStockState.quants 1 1 ≤ 0 ∧
    (transfer_inventory sampleEnv ⟨some "B", some 1, some 2, some 1⟩ emptyStockState).1 =
      .error .insufficientStock ∧
    (transfer_inventory sampleEnv ⟨some "B", some 1, some 2, some 1⟩ emptyStockState).1 ≠
      .error .noStock := by
  with_unfolding_all decide

/-- C3 (amended): for a transfer request with positive quantity that passes
every earlier validation, insufficient summed on-hand at the source yields
`insufficientStock`; the `noStock` branch (on-hand ≤ 0) is unreachable,
because a positive quantity makes `on-hand < quantity` fire first, so
`noStock` is never returned. -/
theorem stock_check_insufficient (E : Env) (req : TransferRequest) (s : State)
    (b : String) (sid did : Int) (Q : ℚ) (v : Product) (sw dw : Warehouse)
    (hb : req.barcode = some b) (hbne : b ≠ "")
    (hs : req.source_warehouse_id = some sid) (hs0 : sid ≠ 0)
    (hd : req.destination_warehouse_id = some did) (hd0 : did ≠ 0)
    (hq : req.quantity = some Q) (hQpos : 0 < Q)
    (hv : findProduct E b = some v)
    (hsw : findWarehouse E sid = some sw) (hdw : findWarehouse E did = some dw)
    (hne : sw.id ≠ dw.id) :
    (onHandSum E s.quants v.id sw.lot_stock_id < Q →
      (transfer_inventory E req s).1 = .error .insufficientStock) ∧
    (∀ s2 : State, (transfer_inventory E req s2).1 ≠ .error .noStock) := by
  have hval : ∀ s2 : State, validateTransfer E req s2 =
      (if onHandSum E s2.quants v.id sw.lot_stock_id < Q then
        .error .insufficientStock
      else if onHandSum E s2.quants v.id sw.lot_stock_id ≤ 0 then
        .error .noStock
      else .ok ⟨v, sw, dw, Q, b⟩) := by
    intro s2
    unfold validateTransfer
    rw [hb]
    dsimp only
    rw [if_neg hbne, hs]
    dsimp only
    rw [if_neg hs0, hd]
    dsimp only
    rw [if_neg hd0, hq]
    dsimp only
    rw [if_neg (not_le.mpr hQpos), hv]
    dsimp only
    rw [hsw]
    dsimp only
    rw [hdw]
    dsimp only
    rw [if_neg hne]
  constructor
  · intro hstock
    unfold transfer_inventory
    rw [hval s, if_pos hstock]
  · intro s2
    unfold transfer_inventory
    rw [hval s2]
    by_cases h1 : onHandSum E s2.quants v.id sw.lot_stock_id < Q
    · rw [if_pos h1]
      simp
    · rw [if_neg h1]
      have h2 : ¬(onHandSum E s2.quants v.id sw.lot_stock_id ≤ 0) := by
        intro hle
        exact h1 (lt_of_le_of_lt hle hQpos)
      rw [if_neg h2]
      simp

/-- Witness for the amended C3 at the empty store. -/
theorem stock_check_insufficient_witness :
    (transfer_inventory sampleEnv ⟨some "B", some 1, some 2, some 1⟩ emptyStockState).1 =
      .error .insufficientStock :=
  (stock_check_insufficient sampleEnv ⟨some "B", some 1, some 2, some 1⟩ emptyStockState
    "B" 1 2 1 ⟨1, "B", "Prod"⟩ ⟨1, "WH1", 1⟩ ⟨2, "WH2", 2⟩
    rfl (by decide) rfl (by decide) rfl (by decide) rfl (by with_unfolding_all decide)
    rfl rfl rfl (by decide)).1 (by with_unfolding_all decide)

/-- C5: during the source-side subtraction no visited row's on-hand is
driven below zero — each touched row ends between 0 and its previous
on-hand with identity fields preserved — and whenever the summed source
on-hand covers the request, the contributions sum to exactly Q. -/
theorem subtraction_never_below_zero (E : Env) (p root : Nat) (qs : List Quant) (Q : ℚ)
    (hQ : 0 ≤ Q) :
    List.Forall₂ (fun a b => b.qid = a.qid ∧ b.product = a.product ∧ b.locId = a.locId ∧
      (b = a ∨ (0 ≤ b.quantity ∧ b.quantity ≤ a.quantity)))
      qs (subtractSource E p root qs Q).1 ∧
    (Q ≤ onHandSum E qs p root →
      (qs.map (fun q => q.quantity)).sum -
        (((subtractSource E p root qs Q).1).map (fun q => q.quantity)).sum = Q) := by
  constructor
  · exact (subtractSource_forall₂ E p root qs Q).imp fun a b hab =>
      ⟨hab.1, hab.2.1, hab.2.2.1, hab.2.2.2.2.imp id fun hc => ⟨hc.2.1, hc.2.2⟩⟩
  · intro hcov
    have hsum := subtractSource_sum E p root qs Q
    have hrem := subtractSource_rem E p root qs Q hQ
    have hle : onHandSum E qs p root ≤
        ((quantsIn E qs p root).map (fun q => max 0 q.quantity)).sum := by
      unfold onHandSum
      refine List.sum_le_sum ?_
      intro q hq
      exact le_max_right _ _
    have hzero : (subtractSource E p root qs Q).2 = 0 := by
      rw [hrem]
      have : Q - ((quantsIn E qs p root).map (fun q => max 0 q.quantity)).sum ≤ 0 := by
        linarith
      exact max_eq_left this
    rw [hsum, hzero]
    ring

/-- Witness for C5: two source rows of 3 and 4 units cover a request of 5. -/
theorem subtraction_never_below_zero_witness :
    (0 : ℚ) ≤ 5 ∧
    (List.Forall₂ (fun a b => b.qid = a.qid ∧ b.product = a.product ∧ b.locId = a.locId ∧
      (b = a ∨ (0 ≤ b.quantity ∧ b.quantity ≤ a.quantity)))
      [(⟨1, 1, 1, 3, none⟩ : Quant), ⟨2, 1, 1, 4, none⟩]
      (subtractSource sampleEnv 1 1 [⟨1, 1, 1, 3, none⟩, ⟨2, 1, 1, 4, none⟩] 5).1 ∧
    ((5 : ℚ) ≤ onHandSum sampleEnv [⟨1, 1, 1, 3, none⟩, ⟨2, 1, 1, 4, none⟩] 1 1 →
      (([(⟨1, 1, 1, 3, none⟩ : Quant), ⟨2, 1, 1, 4, none⟩].map (fun q => q.quantity)).sum -
        (((subtractSource sampleEnv 1 1 [⟨1, 1, 1, 3, none⟩, ⟨2, 1, 1, 4, none⟩] 5).1).map
          (fun q => q.quantity)).sum = 5))) :=
  ⟨by with_unfolding_all decide,
    subtraction_never_below_zero sampleEnv 1 1 [⟨1, 1, 1, 3, none⟩, ⟨2, 1, 1, 4, none⟩] 5
      (by with_unfolding_all decide)⟩

/-- C6: the audit direction is the stated pure function of the four
before/after snapshots — increase when either delta is positive (checked
first), else decrease when either is negative, else neutral — and
re-deriving the audit fields from a stored entry is idempotent, so it
always reproduces the stored direction. -/
theorem direction_pure_function_and_idempotent :
    (∀ (quantRef : Option Nat) (p loc : Nat) (ct : ChangeType) (ohB ohA avB avA : ℚ)
      (locFrom locTo : Option Nat) (r n : String),
      (_log_quant_change quantRef p loc ct ohB ohA avB avA locFrom locTo r n).direction =
        (if 0 < ohA - ohB ∨ 0 < avA - avB then Direction.increase
         else if ohA - ohB < 0 ∨ avA - avB < 0 then Direction.decrease
         else Direction.neutral)) ∧
    (∀ e : StockQuantChange, _compute_deltas (_compute_deltas e) = _compute_deltas e) :=
  ⟨fun _ _ _ _ _ _ _ _ _ _ _ _ => rfl, fun _ => rfl⟩

/-- C7: the adjustment target is `set → quantity`, `add → current + quantity`,
`subtract → current − quantity`; a subtract whose result would be negative
is rejected with `insufficientStock` and leaves the store untouched (no
ledger write, no audit entry). -/
theorem adjust_target_and_subtract_rejection (E : Env) (req : AdjustRequest) (s : State)
    (v : ValidAdjust) (hval : validateAdjust E req = .ok v) :
    (v.op = "set" → ∃ r : AdjustResult, (adjust_inventory E req s).1 = .ok r ∧
      r.new_counted_quantity = v.quantity) ∧
    (v.op = "add" → ∃ r : AdjustResult, (adjust_inventory E req s).1 = .ok r ∧
      r.new_counted_quantity = currentCounted E s v.product.id v.w.lot_stock_id + v.quantity) ∧
    (v.op = "subtract" →
      (currentCounted E s v.product.id v.w.lot_stock_id - v.quantity < 0 →
        adjust_inventory E req s = (.error .insufficientStock, s)) ∧
      (0 ≤ currentCounted E s v.product.id v.w.lot_stock_id - v.quantity →
        ∃ r : AdjustResult, (adjust_inventory E req s).1 = .ok r ∧
          r.new_counted_quantity =
            currentCounted E s v.product.id v.w.lot_stock_id - v.quantity)) := by
  have hadj : adjust_inventory E req s = performAdjust E v s := by
    unfold adjust_inventory
    rw [hval]
  rw [hadj]
  refine ⟨?_, ?_, ?_⟩
  · intro hop
    unfold performAdjust
    dsimp only
    rw [if_pos hop]
    exact ⟨_, rfl, rfl⟩
  · intro hop
    unfold performAdjust
    dsimp only
    rw [if_neg (by rw [hop]; decide), if_pos hop]
    exact ⟨_, rfl, rfl⟩
  · intro hop
    have hne1 : ¬(v.op = "set") := by rw [hop]; decide
    have hne2 : ¬(v.op = "add") := by rw [hop]; decide
    constructor
    · intro hneg
      unfold performAdjust
      dsimp only
      rw [if_neg hne1, if_neg hne2, if_pos hneg]
    · intro hpos
      unfold performAdjust
      dsimp only
      rw [if_neg hne1, if_neg hne2, if_neg (not_lt.mpr hpos)]
      exact ⟨_, rfl, rfl⟩

/-- Witness for C7: subtracting 20 from a counted quantity of 10 is
rejected with `insufficientStock` and the store is unchanged. -/
theorem adjust_target_and_subtract_rejection_witness :
    adjust_inventory sampleEnv ⟨some "B", some 1, some "subtract", some 20⟩ sampleState =
      (.error .insufficientStock, sampleState) :=
  ((adjust_target_and_subtract_rejection sampleEnv
      ⟨some "B", some 1, some "subtract", some 20⟩ sampleState
      ⟨⟨1, "B", "Prod"⟩, ⟨1, "WH1", 1⟩, "subtract", 20, "B"⟩ rfl).2.2
    rfl).1 (by with_unfolding_all decide)

/-- C10: no sign validation exists for the quantity of `set`/`add`
adjustments: a `set` with quantity −5 succeeds, answers a negative new
counted quantity, and persists it on the ledger row. -/
theorem negative_quantity_accepted_for_set :
    (adjust_inventory sampleEnv ⟨some "B", some 1, some "set", some (-5)⟩ sampleState).1 =
      .ok ⟨"Prod", "B", "set", -5, 10, -5, "WH1"⟩ ∧
    ((-5 : ℚ) < 0) ∧
    (adjust_inventory sampleEnv ⟨some "B", some 1, some "set", some (-5)⟩
        sampleState).2.quants.map (fun q => q.inventory_quantity) = [some (-5)] := by
  with_unfolding_all decide

/-- C2: on every transfer that passes validation, the returned split is
`available_transferred = min(A, Q)` and `additional_added = max(0, Q − A)`
for source availability A; and whenever `Q ≤ A` (with a reflexive,
transitive hierarchy whose source and destination subtrees are disjoint),
the over-commitment is 0 and the destination availability sum rises by
exactly Q. -/
theorem transfer_split_and_destination_increase (E : Env) (req : TransferRequest)
    (s : State) (v : ValidTransfer) (hval : validateTransfer E req s = .ok v)
    (hWF : WF s) (hInv : availInv s)
    (hrefl : childOf E v.dstW.lot_stock_id v.dstW.lot_stock_id = true)
    (htrans : ∀ a b c, childOf E a b = true → childOf E b c = true → childOf E a c = true)
    (hdisj : ∀ l, ¬(childOf E l v.srcW.lot_stock_id = true ∧
      childOf E l v.dstW.lot_stock_id = true)) :
    ∃ r : TransferResult, (transfer_inventory E req s).1 = .ok r ∧
      r.available_transferred =
        min (availSum E s.reservations s.quants v.product.id v.srcW.lot_stock_id)
          v.quantity ∧
      r.additional_added =
        max 0 (v.quantity -
          availSum E s.reservations s.quants v.product.id v.srcW.lot_stock_id) ∧
      (v.quantity ≤ availSum E s.reservations s.quants v.product.id v.srcW.lot_stock_id →
        r.additional_added = 0 ∧
        availSum E (transfer_inventory E req s).2.reservations
            (transfer_inventory E req s).2.quants v.product.id v.dstW.lot_stock_id =
          availSum E s.reservations s.quants v.product.id v.dstW.lot_stock_id +
            v.quantity) := by
  have hti : transfer_inventory E req s =
      (.ok (performTransfer E v s).1, (performTransfer E v s).2) := by
    unfold transfer_inventory
    rw [hval]
  rw [hti]
  dsimp only
  refine ⟨(performTransfer E v s).1, rfl, rfl, rfl, ?_⟩
  intro hcov
  have hadd : max 0 (v.quantity -
      availSum E s.reservations s.quants v.product.id v.srcW.lot_stock_id) = 0 :=
    max_eq_left (by linarith)
  constructor
  · have h0 : (performTransfer E v s).1.additional_added =
        max 0 (v.quantity -
          availSum E s.reservations s.quants v.product.id v.srcW.lot_stock_id) := rfl
    rw [h0, hadd]
  · have hq2 : (performTransfer E v s).2.quants =
        (destinationPhase v.product.id v.dstW.lot_stock_id v.quantity
          (max 0 (v.quantity -
            availSum E s.reservations s.quants v.product.id v.srcW.lot_stock_id))
          (sourcePhase E v.product.id v.srcW.lot_stock_id v.quantity
            (max 0 (v.quantity -
              availSum E s.reservations s.quants v.product.id v.srcW.lot_stock_id))
            s)).quants := rfl
    have hr2 : (performTransfer E v s).2.reservations =
        (destinationPhase v.product.id v.dstW.lot_stock_id v.quantity
          (max 0 (v.quantity -
            availSum E s.reservations s.quants v.product.id v.srcW.lot_stock_id))
          (sourcePhase E v.product.id v.srcW.lot_stock_id v.quantity
            (max 0 (v.quantity -
              availSum E s.reservations s.quants v.product.id v.srcW.lot_stock_id))
            s)).reservations := rfl
    rw [hq2, hr2, hadd]
    obtain ⟨hWF2, hInv2, _, _, _⟩ :=
      sourcePhase_spec E v.product.id v.srcW.lot_stock_id v.quantity 0 s hWF hInv htrans
    rw [destinationPhase_availSum_zero E v.product.id v.dstW.lot_stock_id v.quantity
      (sourcePhase E v.product.id v.srcW.lot_stock_id v.quantity 0 s)
      hWF2.2.1 hWF2.2.2.2.2.2.2 hrefl]
    rw [sourcePhase_dst_availSum E v.product.id v.srcW.lot_stock_id v.dstW.lot_stock_id
      v.quantity 0 s hWF hInv htrans hdisj]

/-- Witness for C2: moving 4 of 10 freely available units between the two
sample warehouses. -/
theorem transfer_split_and_destination_increase_witness :
    ∃ r : TransferResult,
      (transfer_inventory sampleEnv ⟨some "B", some 1, some 2, some 4⟩ sampleState).1 =
        .ok r ∧
      r.available_transferred =
        min (availSum sampleEnv sampleState.reservations sampleState.quants 1 1) 4 ∧
      r.additional_added =
        max 0 (4 - availSum sampleEnv sampleState.reservations sampleState.quants 1 1) ∧
      ((4 : ℚ) ≤ availSum sampleEnv sampleState.reservations sampleState.quants 1 1 →
        r.additional_added = 0 ∧
        availSum sampleEnv
            (transfer_inventory sampleEnv ⟨some "B", some 1, some 2, some 4⟩
              sampleState).2.reservations
            (transfer_inventory sampleEnv ⟨some "B", some 1, some 2, some 4⟩
              sampleState).2.quants 1 2 =
          availSum sampleEnv sampleState.reservations sampleState.quants 1 2 + 4) :=
  transfer_split_and_destination_increase sampleEnv ⟨some "B", some 1, some 2, some 4⟩
    sampleState ⟨⟨1, "B", "Prod"⟩, ⟨1, "WH1", 1⟩, ⟨2, "WH2", 2⟩, 4, "B"⟩
    (by with_unfolding_all decide)
    (by
      unfold WF pairUnique qidsNodup qidFresh ridsNodup ridFresh resNonneg resCovered
        sampleState
      decide)
    (by
      unfold availInv available_quantity reserved_quantity sampleState
      with_unfolding_all decide)
    (by decide) sampleEnv_trans sampleEnv_disj

/-- C8: a successful adjustment writes only the staged counted quantity:
reservations are untouched, every ledger row keeps its identity and on-hand
(up to one fresh zero-on-hand row created for a missing pair), and the one
appended audit entry carries identical on-hand and available before/after
snapshots. -/
theorem adjust_writes_only_counted (E : Env) (req : AdjustRequest) (s : State)
    (r : AdjustResult) (s2 : State) (h : adjust_inventory E req s = (.ok r, s2)) :
    s2.reservations = s.reservations ∧
    (s2.quants.map eraseCounted = s.quants.map eraseCounted ∨
      ∃ pp ll, s2.quants.map eraseCounted =
        s.quants.map eraseCounted ++ [⟨s.nextQid, pp, ll, 0, none⟩]) ∧
    ∃ e, s2.audit = s.audit ++ [e] ∧
      e.on_hand_before = e.on_hand_after ∧ e.available_before = e.available_after := by
  unfold adjust_inventory at h
  cases hval : validateAdjust E req with
  | error e =>
    rw [hval] at h
    simp at h
  | ok v =>
    rw [hval] at h
    dsimp only at h
    unfold performAdjust at h
    dsimp only at h
    by_cases hset : v.op = "set"
    · rw [if_pos hset] at h
      dsimp only at h
      cases hfind : s.quants.find?
          (fun q => q.product == v.product.id && q.locId == v.w.lot_stock_id) with
      | some q =>
        rw [hfind] at h
        dsimp only at h
        injection h with h1 h2
        subst h2
        exact ⟨rfl, Or.inl (setQuantInv_map_eraseCounted q.qid _ s.quants),
          ⟨_, rfl, rfl, rfl⟩⟩
      | none =>
        rw [hfind] at h
        dsimp only at h
        injection h with h1 h2
        subst h2
        refine ⟨rfl, Or.inr ⟨v.product.id, v.w.lot_stock_id, ?_⟩, ⟨_, rfl, rfl, rfl⟩⟩
        rw [List.map_append]
        rfl
    · rw [if_neg hset] at h
      by_cases haddo : v.op = "add"
      · rw [if_pos haddo] at h
        dsimp only at h
        cases hfind : s.quants.find?
            (fun q => q.product == v.product.id && q.locId == v.w.lot_stock_id) with
        | some q =>
          rw [hfind] at h
          dsimp only at h
          injection h with h1 h2
          subst h2
          exact ⟨rfl, Or.inl (setQuantInv_map_eraseCounted q.qid _ s.quants),
            ⟨_, rfl, rfl, rfl⟩⟩
        | none =>
          rw [hfind] at h
          dsimp only at h
          injection h with h1 h2
          subst h2
          refine ⟨rfl, Or.inr ⟨v.product.id, v.w.lot_stock_id, ?_⟩, ⟨_, rfl, rfl, rfl⟩⟩
          rw [List.map_append]
          rfl
      · rw [if_neg haddo] at h
        by_cases hneg : currentCounted E s v.product.id v.w.lot_stock_id - v.quantity < 0
        · rw [if_pos hneg] at h
          dsimp only at h
          simp at h
        · rw [if_neg hneg] at h
          dsimp only at h
          cases hfind : s.quants.find?
              (fun q => q.product == v.product.id && q.locId == v.w.lot_stock_id) with
          | some q =>
            rw [hfind] at h
            dsimp only at h
            injection h with h1 h2
            subst h2
            exact ⟨rfl, Or.inl (setQuantInv_map_eraseCounted q.qid _ s.quants),
              ⟨_, rfl, rfl, rfl⟩⟩
          | none =>
            rw [hfind] at h
            dsimp only at h
            injection h with h1 h2
            subst h2
            refine ⟨rfl, Or.inr ⟨v.product.id, v.w.lot_stock_id, ?_⟩, ⟨_, rfl, rfl, rfl⟩⟩
            rw [List.map_append]
            rfl

/-- Witness for C8 at a concrete `add` adjustment. -/
theorem adjust_writes_only_counted_witness :
    (adjust_inventory sampleEnv ⟨some "B", some 1, some "add", some 5⟩
        sampleState).2.reservations = sampleState.reservations ∧
    ((adjust_inventory sampleEnv ⟨some "B", some 1, some "add", some 5⟩
          sampleState).2.quants.map eraseCounted = sampleState.quants.map eraseCounted ∨
      ∃ pp ll, (adjust_inventory sampleEnv ⟨some "B", some 1, some "add", some 5⟩
          sampleState).2.quants.map eraseCounted =
        sampleState.quants.map eraseCounted ++ [⟨sampleState.nextQid, pp, ll, 0, none⟩]) ∧
    ∃ e, (adjust_inventory sampleEnv ⟨some "B", some 1, some "add", some 5⟩
        sampleState).2.audit = sampleState.audit ++ [e] ∧
      e.on_hand_before = e.on_hand_after ∧ e.available_before = e.available_after :=
  adjust_writes_only_counted sampleEnv ⟨some "B", some 1, some "add", some 5⟩ sampleState
    ⟨"Prod", "B", "add", 5, 10, 15, "WH1"⟩
    (adjust_inventory sampleEnv ⟨some "B", some 1, some "add", some 5⟩ sampleState).2
    (by with_unfolding_all decide)

/-- C9 counterexample: two stores that differ only by a destination-side
reservation produce the very same successful transfer result, although
their destination availability differs — so the returned result cannot
contain destination available before/after snapshots. -/
theorem transfer_result_missing_destination_available :
    (transfer_inventory sampleEnv ⟨some "B", some 1, some 2, some 4⟩ stA).1 =
      (transfer_inventory sampleEnv ⟨some "B", some 1, some 2, some 4⟩ stB).1 ∧
    availSum sampleEnv
        (transfer_inventory sampleEnv ⟨some "B", some 1, some 2, some 4⟩
          stA).2.reservations
        (transfer_inventory sampleEnv ⟨some "B", some 1, some 2, some 4⟩
          stA).2.quants 1 2 ≠
      availSum sampleEnv
        (transfer_inventory sampleEnv ⟨some "B", some 1, some 2, some 4⟩
          stB).2.reservations
        (transfer_inventory sampleEnv ⟨some "B", some 1, some 2, some 4⟩
          stB).2.quants 1 2 := by
  with_unfolding_all decide

/-- C9 (amended): a successful transfer returns the product identity,
quantity, available/over-commitment split, on-hand and available
before/after snapshots of the source — but for the destination only the
on-hand before/after snapshots, no destination available fields. -/
theorem transfer_result_contents (E : Env) (req : TransferRequest) (s : State)
    (v : ValidTransfer) (hval : validateTransfer E req s = .ok v) :
    (transfer_inventory E req s).1 =
      .ok ⟨v.product.name, v.barcode, v.quantity,
        min (availSum E s.reservations s.quants v.product.id v.srcW.lot_stock_id)
          v.quantity,
        max 0 (v.quantity -
          availSum E s.reservations s.quants v.product.id v.srcW.lot_stock_id),
        v.srcW.id, v.srcW.name,
        onHandSum E s.quants v.product.id v.srcW.lot_stock_id,
        onHandSum E (transfer_inventory E req s).2.quants v.product.id
          v.srcW.lot_stock_id,
        availSum E s.reservations s.quants v.product.id v.srcW.lot_stock_id,
        availSum E (transfer_inventory E req s).2.reservations
          (transfer_inventory E req s).2.quants v.product.id v.srcW.lot_stock_id,
        v.dstW.id, v.dstW.name,
        onHandSum E s.quants v.product.id v.dstW.lot_stock_id,
        onHandSum E (transfer_inventory E req s).2.quants v.product.id
          v.dstW.lot_stock_id⟩ := by
  have hti : transfer_inventory E req s =
      (.ok (performTransfer E v s).1, (performTransfer E v s).2) := by
    unfold transfer_inventory
    rw [hval]
  rw [hti]
  rfl

/-- Witness for the amended C9 at a concrete transfer. -/
theorem transfer_result_contents_witness :
    (transfer_inventory sampleEnv ⟨some "B", some 1, some 2, some 4⟩ sampleState).1 =
      .ok ⟨"Prod", "B", 4,
        min (availSum sampleEnv sampleState.reservations sampleState.quants 1 1) 4,
        max 0 (4 - availSum sampleEnv sampleState.reservations sampleState.quants 1 1),
        1, "WH1",
        onHandSum sampleEnv sampleState.quants 1 1,
        onHandSum sampleEnv
          (transfer_inventory sampleEnv ⟨some "B", some 1, some 2, some 4⟩
            sampleState).2.quants 1 1,
        availSum sampleEnv sampleState.reservations sampleState.quants 1 1,
        availSum sampleEnv
          (transfer_inventory sampleEnv ⟨some "B", some 1, some 2, some 4⟩
            sampleState).2.reservations
          (transfer_inventory sampleEnv ⟨some "B", some 1, some 2, some 4⟩
            sampleState).2.quants 1 1,
        2, "WH2",
        onHandSum sampleEnv sampleState.quants 1 2,
        onHandSum sampleEnv
          (transfer_inventory sampleEnv ⟨some "B", some 1, some 2, some 4⟩
            sampleState).2.quants 1 2⟩ :=
  transfer_result_contents sampleEnv ⟨some "B", some 1, some 2, some 4⟩ sampleState
    ⟨⟨1, "B", "Prod"⟩, ⟨1, "WH1", 1⟩, ⟨2, "WH2", 2⟩, 4, "B"⟩
    (by with_unfolding_all decide)

end InventoryOdoo
